import Mathlib

/-!
# Verification of `merge_sites_Version2.py`

A shallow embedding of the core of `merge_sites_Version2.py`:

* `JVal` models the Python JSON value domain produced by `json.loads`
  (objects are association lists with string keys; numbers are modelled as
  arbitrary-precision integers — JSON float literals, `NaN`/`Infinity`
  constants and lone surrogates are outside the model, which matches every
  input exercised by this development).
* `normalize_site` models `json.dumps(item, ensure_ascii=False, sort_keys=True)`.
* `pyLoads` models `json.loads` on the integer fragment.
* `sitesSearch` models `SITES_REGEX.search`, `stripTrailingCommas` models
  `re.sub(r",\s*([\]\}])", r"\1", t)`.
* `extract_sites_from_text`, `fetch_and_extract`, `resolve_urls` and
  `mergeLoop` model the corresponding functions / sections of `main`.
-/

/-- A JSON value as produced by Python's `json.loads`: objects keep key
insertion order and are association lists of string keys. -/
inductive JVal where
  | jnull : JVal
  | jbool (b : Bool) : JVal
  | jnum (n : Int) : JVal
  | jstr (s : String) : JVal
  | jarr (xs : List JVal) : JVal
  | jobj (kvs : List (String × JVal)) : JVal
namespace MergeSites

open JVal

/-- Python truthiness (`bool(x)`) on the modelled JSON value domain. -/
def pyTruthy : JVal → Bool
  | .jnull => false
  | .jbool b => b
  | .jnum n => n != 0
  | .jstr s => s != ""
  | .jarr xs => !xs.isEmpty
  | .jobj kvs => !kvs.isEmpty

/-- `d.get(k)` on an association-list object (first matching key wins;
objects built by `json.loads` have distinct keys). -/
def getKey (k : String) : List (String × JVal) → Option JVal
  | [] => none
  | (k', v) :: rest => if k' = k then some v else getKey k rest

/-! ## Integer serialization (Python `repr` of `int`) -/

/-- The decimal digit character for `d < 10`. -/
def digitCh : Nat → Char
  | 0 => '0' | 1 => '1' | 2 => '2' | 3 => '3' | 4 => '4'
  | 5 => '5' | 6 => '6' | 7 => '7' | 8 => '8' | _ => '9'

/-- Little-endian decimal digits of `n` (empty for `0`); `fuel ≥ n` suffices. -/
def natDigitsAux : Nat → Nat → List Nat
  | 0, _ => []
  | fuel + 1, n => if n = 0 then [] else n % 10 :: natDigitsAux fuel (n / 10)

/-- Decimal digit characters of a natural number, most significant first,
exactly as Python's `repr` renders it (`0` renders as `"0"`). -/
def natChars (n : Nat) : List Char :=
  if n = 0 then ['0'] else ((natDigitsAux n n).reverse).map digitCh

/-- Characters of Python's `repr` of an `int` (what `json.dumps` emits for
an integer). -/
def intChars (i : Int) : List Char :=
  if i < 0 then '-' :: natChars i.natAbs else natChars i.toNat

/-! ## String escaping (Python `json.encoder.py_encode_basestring`,
the `ensure_ascii=False` encoder: escape `"`, `\` and control characters,
pass everything else through) -/

/-- The lowercase hex digit character for `d < 16`. -/
def hexCh : Nat → Char
  | 0 => '0' | 1 => '1' | 2 => '2' | 3 => '3' | 4 => '4'
  | 5 => '5' | 6 => '6' | 7 => '7' | 8 => '8' | 9 => '9'
  | 10 => 'a' | 11 => 'b' | 12 => 'c' | 13 => 'd' | 14 => 'e' | _ => 'f'

/-- Escape one character per `ESCAPE_DCT` of Python's `json.encoder`
(`ensure_ascii=False`): `"` and `\` get backslash escapes, the five named
control characters get short escapes, other control characters get
`\u00xx`, and everything else is passed through verbatim. -/
def escC (c : Char) : List Char :=
  if c = '"' then ['\\', '"']
  else if c = '\\' then ['\\', '\\']
  else if c.toNat < 0x20 then
    if c = '\x08' then ['\\', 'b']
    else if c = '\x09' then ['\\', 't']
    else if c = '\x0a' then ['\\', 'n']
    else if c = '\x0c' then ['\\', 'f']
    else if c = '\x0d' then ['\\', 'r']
    else ['\\', 'u', '0', '0', hexCh (c.toNat / 16), hexCh (c.toNat % 16)]
  else [c]

/-- Escape every character of a string body. -/
def escBody : List Char → List Char
  | [] => []
  | c :: cs => escC c ++ escBody cs

/-- A JSON string literal: `"` + escaped body + `"`. -/
def encChars (s : List Char) : List Char :=
  '"' :: escBody s ++ ['"']

/-! ## `json.dumps(·, ensure_ascii=False, sort_keys=True)`
(= `normalize_site`, line 46-47 of the source).

Key sorting is factored out: `sortJ` recursively sorts every object's
entries by key (Python's `sorted` on distinct string keys), and `serC`
serializes with the default separators `", "` and `": "`. -/

/-- Lexicographic-by-code-point `≤` on character lists: how Python
compares `str` values, hence how `sorted` orders keys. -/
def charsLe : List Char → List Char → Bool
  | [], _ => true
  | _ :: _, [] => false
  | a :: as, b :: bs =>
    if a.toNat < b.toNat then true
    else if b.toNat < a.toNat then false
    else charsLe as bs

/-- Python's `≤` on `str`. -/
def strLe (a b : String) : Bool := charsLe a.data b.data

/-- Key order used by `sort_keys=True`. -/
def keyLe (p q : String × JVal) : Prop := strLe p.1 q.1 = true

instance : DecidableRel keyLe := fun p q => inferInstanceAs (Decidable (strLe p.1 q.1 = true))

mutual

/-- Recursively sort every object's entry list by key. -/
def sortJ : JVal → JVal
  | .jnull => .jnull
  | .jbool b => .jbool b
  | .jnum n => .jnum n
  | .jstr s => .jstr s
  | .jarr xs => .jarr (sortJList xs)
  | .jobj kvs => .jobj (List.insertionSort keyLe (sortJPairs kvs))

/-- `sortJ` mapped over array elements. -/
def sortJList : List JVal → List JVal
  | [] => []
  | v :: vs => sortJ v :: sortJList vs

/-- `sortJ` mapped over object entry values. -/
def sortJPairs : List (String × JVal) → List (String × JVal)
  | [] => []
  | (k, v) :: kvs => (k, sortJ v) :: sortJPairs kvs

end

mutual

/-- Characters of `json.dumps(v, ensure_ascii=False)` with the default
separators `", "` / `": "` and keys emitted in the value's own order. -/
def serC : JVal → List Char
  | .jnull => ['n', 'u', 'l', 'l']
  | .jbool true => ['t', 'r', 'u', 'e']
  | .jbool false => ['f', 'a', 'l', 's', 'e']
  | .jnum n => intChars n
  | .jstr s => encChars s.data
  | .jarr xs => '[' :: serCList xs ++ [']']
  | .jobj kvs => '{' :: serCObj kvs ++ ['}']

/-- Array elements joined by `", "`. -/
def serCList : List JVal → List Char
  | [] => []
  | [v] => serC v
  | v :: vs => serC v ++ ',' :: ' ' :: serCList vs

/-- Object entries `key: value` joined by `", "`. -/
def serCObj : List (String × JVal) → List Char
  | [] => []
  | [(k, v)] => encChars k.data ++ ':' :: ' ' :: serC v
  | (k, v) :: kvs => encChars k.data ++ ':' :: ' ' :: serC v ++ ',' :: ' ' :: serCObj kvs

end

/-- `normalize_site(item)` = `json.dumps(item, ensure_ascii=False, sort_keys=True)`
(source lines 46-47). -/
def normalize_site (v : JVal) : String :=
  ⟨serC (sortJ v)⟩

/-- Proof auxiliary: the first character `serC` emits for a value. -/
def vheadChar : JVal → Char
  | .jnull => 'n'
  | .jbool true => 't'
  | .jbool false => 'f'
  | .jnum n => if n < 0 then '-' else (natChars n.toNat).headD '0'
  | .jstr _ => '"'
  | .jarr _ => '['
  | .jobj _ => '\x7b'

/-- Proof auxiliary: what follows the first element in a serialized
array tail. -/
def listSep : List JVal → List Char
  | [] => []
  | v :: vs => ',' :: ' ' :: serCList (v :: vs)

/-- Proof auxiliary: what follows the first entry in a serialized
object tail. -/
def objSep : List (String × JVal) → List Char
  | [] => []
  | p :: ps => ',' :: ' ' :: serCObj (p :: ps)

/-! ## `json.dumps(data)` with default settings (`ensure_ascii=True`,
insertion key order) — used by `main`'s URL-regex fallback (line 138). -/

/-- Escape one character per the `ensure_ascii=True` encoder
(`py_encode_basestring_ascii`): like `escC` for `"`, `\` and controls, and
additionally every character outside printable ASCII becomes `\uxxxx`
(astral characters become a surrogate pair). -/
def escA (c : Char) : List Char :=
  if c = '"' then ['\\', '"']
  else if c = '\\' then ['\\', '\\']
  else if c.toNat < 0x20 then
    if c = '\x08' then ['\\', 'b']
    else if c = '\x09' then ['\\', 't']
    else if c = '\x0a' then ['\\', 'n']
    else if c = '\x0c' then ['\\', 'f']
    else if c = '\x0d' then ['\\', 'r']
    else ['\\', 'u', '0', '0', hexCh (c.toNat / 16), hexCh (c.toNat % 16)]
  else if c.toNat < 0x7f then [c]
  else if c.toNat < 0x10000 then
    ['\\', 'u', hexCh (c.toNat / 4096 % 16), hexCh (c.toNat / 256 % 16),
     hexCh (c.toNat / 16 % 16), hexCh (c.toNat % 16)]
  else
    let u := c.toNat - 0x10000
    let hi := 0xd800 + u / 1024
    let lo := 0xdc00 + u % 1024
    ['\\', 'u', hexCh (hi / 4096 % 16), hexCh (hi / 256 % 16), hexCh (hi / 16 % 16),
     hexCh (hi % 16),
     '\\', 'u', hexCh (lo / 4096 % 16), hexCh (lo / 256 % 16), hexCh (lo / 16 % 16),
     hexCh (lo % 16)]

/-- `escA` applied to every character of a string body. -/
def escABody : List Char → List Char
  | [] => []
  | c :: cs => escA c ++ escABody cs

/-- ASCII JSON string literal. -/
def encCharsA (s : List Char) : List Char :=
  '"' :: escABody s ++ ['"']

mutual

/-- Characters of `json.dumps(v)` with default settings. -/
def serA : JVal → List Char
  | .jnull => ['n', 'u', 'l', 'l']
  | .jbool true => ['t', 'r', 'u', 'e']
  | .jbool false => ['f', 'a', 'l', 's', 'e']
  | .jnum n => intChars n
  | .jstr s => encCharsA s.data
  | .jarr xs => '[' :: serAList xs ++ [']']
  | .jobj kvs => '{' :: serAObj kvs ++ ['}']

/-- Array elements joined by `", "`. -/
def serAList : List JVal → List Char
  | [] => []
  | [v] => serA v
  | v :: vs => serA v ++ ',' :: ' ' :: serAList vs

/-- Object entries `key: value` joined by `", "`, in insertion order. -/
def serAObj : List (String × JVal) → List Char
  | [] => []
  | [(k, v)] => encCharsA k.data ++ ':' :: ' ' :: serA v
  | (k, v) :: kvs => encCharsA k.data ++ ':' :: ' ' :: serA v ++ ',' :: ' ' :: serAObj kvs

end

/-- `json.dumps(data)` with default settings. -/
def dumpsAscii (v : JVal) : String :=
  ⟨serA v⟩

/-! ## `json.loads` (Python's strict JSON decoder, on the integer
fragment of JSON: float literals, `NaN`/`Infinity` and lone surrogate
escapes make the model decoder fail where Python would produce a float or
a lone-surrogate string; no input in this development contains them). -/

/-- JSON whitespace (`json.decoder.WHITESPACE`): space, tab, newline,
carriage return. -/
def isJsonWS (c : Char) : Bool :=
  c == ' ' || c == '\t' || c == '\n' || c == '\r'

/-- Drop leading JSON whitespace. -/
def skipWS : List Char → List Char
  | [] => []
  | c :: cs => if isJsonWS c then skipWS cs else c :: cs

/-- The value of a hex digit character. -/
def hexVal? (c : Char) : Option Nat :=
  if '0' ≤ c && c ≤ '9' then some (c.toNat - 48)
  else if 'a' ≤ c && c ≤ 'f' then some (c.toNat - 87)
  else if 'A' ≤ c && c ≤ 'F' then some (c.toNat - 70)
  else none

/-- Parse exactly four hex digits. -/
def parse4Hex : List Char → Option (Nat × List Char)
  | a :: b :: c :: d :: rest =>
    match hexVal? a, hexVal? b, hexVal? c, hexVal? d with
    | some va, some vb, some vc, some vd => some (va * 4096 + vb * 256 + vc * 16 + vd, rest)
    | _, _, _, _ => none
  | _ => none

/-- Parse a string body after the opening quote (`py_scanstring`, strict
mode: raw control characters are rejected; `\uXXXX` escapes are decoded
with surrogate-pair combination; a lone surrogate makes the model fail). -/
def parseStrBody : List Char → Option (List Char × List Char)
  | [] => none
  | '"' :: rest => some ([], rest)
  | '\\' :: esc :: rest =>
    match esc with
    | '"' => (parseStrBody rest).map (fun (s, r) => ('"' :: s, r))
    | '\\' => (parseStrBody rest).map (fun (s, r) => ('\\' :: s, r))
    | '/' => (parseStrBody rest).map (fun (s, r) => ('/' :: s, r))
    | 'b' => (parseStrBody rest).map (fun (s, r) => ('\x08' :: s, r))
    | 'f' => (parseStrBody rest).map (fun (s, r) => ('\x0c' :: s, r))
    | 'n' => (parseStrBody rest).map (fun (s, r) => ('\x0a' :: s, r))
    | 'r' => (parseStrBody rest).map (fun (s, r) => ('\x0d' :: s, r))
    | 't' => (parseStrBody rest).map (fun (s, r) => ('\x09' :: s, r))
    | 'u' =>
      match rest with
      | a :: b :: c :: d :: rest2 =>
        match parse4Hex [a, b, c, d] with
        | none => none
        | some (n, _) =>
          if n < 0xd800 || 0xe000 ≤ n then
            match rest2 with
            | r3 => (parseStrBody r3).map (fun (s, r) => (Char.ofNat n :: s, r))
          else if n < 0xdc00 then
            match rest2 with
            | '\\' :: 'u' :: a2 :: b2 :: c2 :: d2 :: rest3 =>
              match parse4Hex [a2, b2, c2, d2] with
              | some (m, _) =>
                if 0xdc00 ≤ m && m < 0xe000 then
                  let code := 0x10000 + (n - 0xd800) * 1024 + (m - 0xdc00)
                  (parseStrBody rest3).map (fun (s, r) => (Char.ofNat code :: s, r))
                else none
              | none => none
            | _ => none
          else none
      | _ => none
    | _ => none
  | c :: rest =>
    if c.toNat < 0x20 then none
    else (parseStrBody rest).map (fun (s, r) => (c :: s, r))

/-- The value of a decimal digit character. -/
def digitVal? (c : Char) : Option Nat :=
  if '0' ≤ c && c ≤ '9' then some (c.toNat - 48) else none

/-- Maximal run of decimal digits, returned as a value accumulated onto
`acc`, together with the rest. -/
def takeDigits (acc : Nat) : List Char → Nat × List Char
  | [] => (acc, [])
  | c :: rest =>
    match digitVal? c with
    | some d => takeDigits (acc * 10 + d) rest
    | none => (acc, c :: rest)

/-- Does the input start a valid exponent (`[eE][+-]?\d`)? Lookahead used
to detect a float literal. -/
def expFollows : List Char → Bool
  | '+' :: c :: _ => (digitVal? c).isSome
  | '-' :: c :: _ => (digitVal? c).isSome
  | c :: _ => (digitVal? c).isSome
  | [] => false

/-- After the integer part: if `NUMBER_RE` would also match a fraction
(`\.\d+`) or an exponent, the literal is a float, outside the model. -/
def checkNumTail (n : Nat) : List Char → Option (Nat × List Char)
  | '.' :: c :: r => if (digitVal? c).isSome then none else some (n, '.' :: c :: r)
  | 'e' :: r => if expFollows r then none else some (n, 'e' :: r)
  | 'E' :: r => if expFollows r then none else some (n, 'E' :: r)
  | r => some (n, r)

/-- Match `0|[1-9]\d*` and reject a following fraction/exponent. -/
def parseNumPos : List Char → Option (Nat × List Char)
  | '0' :: rest => checkNumTail 0 rest
  | c :: rest =>
    match digitVal? c with
    | some d =>
      if d = 0 then none
      else
        let (n, r) := takeDigits d rest
        checkNumTail n r
    | none => none
  | [] => none

/-- Match `json.scanner.NUMBER_RE`'s integer part `-?(0|[1-9]\d*)`
(fraction/exponent forms — float literals — are outside the model). -/
def parseNum : List Char → Option (JVal × List Char)
  | '-' :: rest =>
    match parseNumPos rest with
    | some (n, r) => some (.jnum (-(n : Int)), r)
    | none => none
  | cs =>
    match parseNumPos cs with
    | some (n, r) => some (.jnum (n : Int), r)
    | none => none

/-- The last value bound to key `k` (default `v`) in a pair list —
Python `dict` construction overwrites on key collision. -/
def lastValue (k : String) (v : JVal) : List (String × JVal) → JVal
  | [] => v
  | (k', v') :: rest => if k' = k then lastValue k v' rest else lastValue k v rest

/-- Python `dict(pairs)`: first-occurrence position, last-occurrence
value, per-key. `fuel ≥ length` suffices. -/
def pyDictAux : Nat → List (String × JVal) → List (String × JVal)
  | 0, _ => []
  | _, [] => []
  | fuel + 1, (k, v) :: rest =>
    (k, lastValue k v rest) :: pyDictAux fuel (rest.filter (fun p => p.1 != k))

/-- Python `dict(pairs)`. -/
def pyDict (ps : List (String × JVal)) : List (String × JVal) :=
  pyDictAux ps.length ps

mutual

/-- `json.scanner.scan_once`: parse one JSON value at the current
position (no leading whitespace). `fuel` only bounds recursion depth. -/
def parseVal : Nat → List Char → Option (JVal × List Char)
  | 0, _ => none
  | fuel + 1, cs =>
    match cs with
    | 'n' :: 'u' :: 'l' :: 'l' :: rest => some (.jnull, rest)
    | 't' :: 'r' :: 'u' :: 'e' :: rest => some (.jbool true, rest)
    | 'f' :: 'a' :: 'l' :: 's' :: 'e' :: rest => some (.jbool false, rest)
    | '"' :: rest =>
      match parseStrBody rest with
      | some (s, r) => some (.jstr ⟨s⟩, r)
      | none => none
    | '[' :: rest =>
      match skipWS rest with
      | ']' :: r => some (.jarr [], r)
      | r => parseArrElems fuel r
    | '{' :: rest =>
      match skipWS rest with
      | '}' :: r => some (.jobj [], r)
      | r => parseObjItems fuel r
    | _ => parseNum cs

/-- `json.decoder.JSONArray` element loop, positioned at a value. -/
def parseArrElems : Nat → List Char → Option (JVal × List Char)
  | 0, _ => none
  | fuel + 1, cs =>
    match parseVal fuel cs with
    | none => none
    | some (v, rest) =>
      match skipWS rest with
      | ',' :: r =>
        match parseArrElems fuel (skipWS r) with
        | some (.jarr vs, r2) => some (.jarr (v :: vs), r2)
        | _ => none
      | ']' :: r => some (.jarr [v], r)
      | _ => none

/-- `json.decoder.JSONObject` member loop, positioned at a key. -/
def parseObjItems : Nat → List Char → Option (JVal × List Char)
  | 0, _ => none
  | fuel + 1, cs =>
    match cs with
    | '"' :: rest =>
      match parseStrBody rest with
      | none => none
      | some (k, r1) =>
        match skipWS r1 with
        | ':' :: r2 =>
          match parseVal fuel (skipWS r2) with
          | none => none
          | some (v, r3) =>
            match skipWS r3 with
            | ',' :: r4 =>
              match parseObjItems fuel (skipWS r4) with
              | some (.jobj kvs, r5) => some (.jobj (pyDict ((⟨k⟩, v) :: kvs)), r5)
              | _ => none
            | '}' :: r4 => some (.jobj (pyDict [(⟨k⟩, v)]), r4)
            | _ => none
        | _ => none
    | _ => none

end

/-- `json.loads(s)`: parse a whole document, allowing surrounding
whitespace and requiring the input to be fully consumed. -/
def pyLoads (s : String) : Option JVal :=
  match parseVal (2 * s.length + 4) (skipWS s.data) with
  | some (v, rest) => if skipWS rest = [] then some v else none
  | none => none

/-! ## `SITES_REGEX = re.compile(r'"sites"\s*:\s*(\[[\s\S]*?\])', re.IGNORECASE)`
(source line 30) and `SITES_REGEX.search` (line 61). -/

/-- Python `re` `\s` on the inputs considered (ASCII whitespace). -/
def isPyWS (c : Char) : Bool :=
  c == ' ' || c == '\t' || c == '\n' || c == '\r' || c == '\x0b' || c == '\x0c'

/-- Drop leading regex whitespace (`\s*`, greedy). -/
def skipPyWS : List Char → List Char
  | [] => []
  | c :: cs => if isPyWS c then skipPyWS cs else c :: cs

/-- Case-insensitive character match (`re.IGNORECASE` on an ASCII
letter). -/
def chCI (c lower upper : Char) : Bool :=
  c == lower || c == upper

/-- Match the literal `"sites"` (case-insensitively) at the current
position, returning the rest. -/
def sitesLit : List Char → Option (List Char)
  | '"' :: c1 :: c2 :: c3 :: c4 :: c5 :: '"' :: rest =>
    if chCI c1 's' 'S' && chCI c2 'i' 'I' && chCI c3 't' 'T' && chCI c4 'e' 'E' &&
        chCI c5 's' 'S' then
      some rest
    else none
  | _ => none

/-- Everything up to (excluding) the first `]`, plus the rest after it. -/
def upToRBracket : List Char → Option (List Char × List Char)
  | [] => none
  | ']' :: rest => some ([], rest)
  | c :: rest =>
    match upToRBracket rest with
    | some (body, r) => some (c :: body, r)
    | none => none

/-- Try to match the whole `SITES_REGEX` pattern at the current position,
returning capture group 1: the lazy `\[[\s\S]*?\]` capture runs from the
`[` to the first following `]`. -/
def sitesMatchAt (cs : List Char) : Option (List Char) :=
  match sitesLit cs with
  | none => none
  | some r1 =>
    match skipPyWS r1 with
    | ':' :: r2 =>
      match skipPyWS r2 with
      | '[' :: r3 =>
        match upToRBracket r3 with
        | some (body, _) => some ('[' :: body ++ [']'])
        | none => none
      | _ => none
    | _ => none

/-- `SITES_REGEX.search`: try each start position left to right. -/
def sitesSearchAux : List Char → Option (List Char)
  | [] => none
  | c :: rest =>
    match sitesMatchAt (c :: rest) with
    | some cap => some cap
    | none => sitesSearchAux rest

/-- `SITES_REGEX.search(text)`, returning `m.group(1)`. -/
def sitesSearch (text : String) : Option String :=
  (sitesSearchAux text.data).map fun cs => ⟨cs⟩

/-! ## `re.sub(r",\s*([\]\}])", r"\1", arr_text)` (source line 69) -/

/-- If the input starts with `\s*` then `]` or `}`, return the bracket
and the rest after it. -/
def wsThenBracket (cs : List Char) : Option (Char × List Char) :=
  match skipPyWS cs with
  | c :: rest => if c == ']' || c == '}' then some (c, rest) else none
  | [] => none

/-- Left-to-right, non-overlapping replacement of `,\s*([\]\}])` by the
bracket. `fuel ≥ length` suffices. -/
def stripTCAux : Nat → List Char → List Char
  | 0, cs => cs
  | _, [] => []
  | fuel + 1, ',' :: rest =>
    match wsThenBracket rest with
    | some (br, rest') => br :: stripTCAux fuel rest'
    | none => ',' :: stripTCAux fuel rest
  | fuel + 1, c :: rest => c :: stripTCAux fuel rest

/-- The single textual repair: remove any comma immediately preceding
(up to whitespace) a closing `]` or `}`. -/
def stripTrailingCommas (s : String) : String :=
  ⟨stripTCAux s.length s.data⟩

/-! ## `re.finditer(r"https?://[^\s'\",]+", ...)` (source line 138) -/

/-- A character the URL token may contain (`[^\s'\",]`). -/
def urlTokChar (c : Char) : Bool :=
  !(isPyWS c || c == '\'' || c == '"' || c == ',')

/-- Match `https?://[^\s'\",]+` at the current position (greedy run,
at least one character after the scheme). -/
def urlTokenAt (cs : List Char) : Option (List Char × List Char) :=
  match cs with
  | 'h' :: 't' :: 't' :: 'p' :: rest =>
    match rest with
    | 's' :: ':' :: '/' :: '/' :: rest2 =>
      let run := rest2.takeWhile urlTokChar
      if run.isEmpty then none
      else some ('h' :: 't' :: 't' :: 'p' :: 's' :: ':' :: '/' :: '/' :: run,
                 rest2.drop run.length)
    | ':' :: '/' :: '/' :: rest2 =>
      let run := rest2.takeWhile urlTokChar
      if run.isEmpty then none
      else some ('h' :: 't' :: 't' :: 'p' :: ':' :: '/' :: '/' :: run,
                 rest2.drop run.length)
    | _ => none
  | _ => none

/-- `re.finditer`: all non-overlapping matches, left to right.
`fuel ≥ length` suffices. -/
def urlScanAux : Nat → List Char → List (List Char)
  | 0, _ => []
  | _, [] => []
  | fuel + 1, c :: rest =>
    match urlTokenAt (c :: rest) with
    | some (tok, rest') => tok :: urlScanAux fuel rest'
    | none => urlScanAux fuel rest

/-- All URL tokens of a string, in order of appearance. -/
def urlScan (s : String) : List String :=
  (urlScanAux s.length s.data).map fun cs => ⟨cs⟩

/-! ## `extract_sites_from_text` (source lines 50-76) -/

/-- The shape test of the strict whole-document path (lines 53-57): a
dict whose `"sites"` value is a list, or a bare list. Any other shape
yields `none` (fall through to the regex path). -/
def shape1 : JVal → Option (List JVal)
  | .jobj kvs =>
    match getKey "sites" kvs with
    | some (.jarr l) => some l
    | _ => none
  | .jarr l => some l
  | _ => none

/-- The regex-recovery path (lines 61-76): search for the capture; parse
it; on a parse failure apply the trailing-comma repair and re-parse;
return `[]` when everything fails. -/
def regexRecover (text : String) : List JVal :=
  match sitesSearch text with
  | none => []
  | some arrText =>
    match pyLoads arrText with
    | some (.jarr l) => l
    | some _ => []
    | none =>
      match pyLoads (stripTrailingCommas arrText) with
      | some (.jarr l) => l
      | _ => []

/-- `extract_sites_from_text(text)` (lines 50-76): strict parse first
(shape-disqualified results fall through exactly like parse errors),
then regex recovery. -/
def extract_sites_from_text (text : String) : List JVal :=
  match pyLoads text with
  | some obj =>
    match shape1 obj with
    | some sites => sites
    | none => regexRecover text
  | none => regexRecover text

/-! ## `fetch_and_extract` (source lines 79-110)

The HTTP collaborator is abstract: `http url = none` models
`requests.get` raising (network error / timeout), `some (status, text)`
models a response. `r.json()` is modelled as `pyLoads` of the body. -/

/-- The structured shape test of lines 92-99. The third check of the
source (`obj.get("sites")` on a dict) repeats the first and adds
nothing: a dict reaches it only when its `"sites"` value is not a list. -/
def shapeFetch : JVal → Option (List JVal)
  | .jobj kvs =>
    match getKey "sites" kvs with
    | some (.jarr l) => some l
    | _ => none
  | .jarr l => some l
  | _ => none

/-- `fetch_and_extract(url)` (lines 79-110). The outer `try` of the
source catches every exception, returning `[]`. -/
def fetch_and_extract (http : JVal → Option (Nat × String)) (url : JVal) : List JVal :=
  if !pyTruthy url then []
  else
    match http url with
    | none => []
    | some (status, text) =>
      if status ≠ 200 then []
      else
        match (pyLoads text).bind shapeFetch with
        | some sites => sites
        | none =>
          let sites := extract_sites_from_text text
          if !sites.isEmpty then sites else []

/-! ## URL resolution in `main` (source lines 127-139) -/

/-- `entry.get(k)`, with Python's `None` default rendered as `jnull`. -/
def getD (k : String) (kvs : List (String × JVal)) : JVal :=
  (getKey k kvs).getD .jnull

/-- Python `a or b`. -/
def pyOr (a b : JVal) : JVal :=
  if pyTruthy a then a else b

/-- The URLs one `urls` entry contributes (lines 129-135): a string is
taken verbatim; a dict contributes
`entry.get("url") or entry.get("Url") or entry.get("link")` when that is
truthy; anything else contributes nothing. -/
def entryUrls : JVal → List JVal
  | .jstr s => [.jstr s]
  | .jobj kvs =>
    let u := pyOr (pyOr (getD "url" kvs) (getD "Url" kvs)) (getD "link" kvs)
    if pyTruthy u then [u] else []
  | _ => []

/-- The per-entry loop of lines 129-135. -/
def entriesUrls : List JVal → List JVal
  | [] => []
  | e :: rest => entryUrls e ++ entriesUrls rest

/-- URL resolution (lines 127-139): a dict with a `urls` list is walked
entry by entry; otherwise the whole document is re-serialized with
`json.dumps` and scanned for URL tokens. -/
def resolve_urls (data : JVal) : List JVal :=
  match data with
  | .jobj kvs =>
    match getKey "urls" kvs with
    | some (.jarr entries) => entriesUrls entries
    | _ => (urlScan (dumpsAscii data)).map .jstr
  | _ => (urlScan (dumpsAscii data)).map .jstr

/-- Modelled from the spec (§4.4, for comparison with the code): for an
object entry, "take the first present value among keys `url`, `Url`,
`link` (in that priority order) — entries with none of these keys are
silently skipped". -/
def entryUrlsSpec : JVal → List JVal
  | .jstr s => [.jstr s]
  | .jobj kvs =>
    match getKey "url" kvs with
    | some u => [u]
    | none =>
      match getKey "Url" kvs with
      | some u => [u]
      | none =>
        match getKey "link" kvs with
        | some u => [u]
        | none => []
  | _ => []

/-- The per-entry loop with the spec's entry semantics. -/
def entriesUrlsSpec : List JVal → List JVal
  | [] => []
  | e :: rest => entryUrlsSpec e ++ entriesUrlsSpec rest

/-- URL resolution as the spec words it. -/
def resolve_urls_spec (data : JVal) : List JVal :=
  match data with
  | .jobj kvs =>
    match getKey "urls" kvs with
    | some (.jarr entries) => entriesUrlsSpec entries
    | _ => (urlScan (dumpsAscii data)).map .jstr
  | _ => (urlScan (dumpsAscii data)).map .jstr

/-! ## The merge loop of `main` (source lines 143-156) -/

/-- The mutable state of the loop: the result list, the set of seen
canonical keys, the `processed` counter, the urls actually passed to
`fetch_and_extract`, and the number of `time.sleep` calls. -/
structure MergeState where
  merged : List JVal
  seen : List String
  processed : Nat
  attempts : List JVal
  delays : Nat

/-- The inner dedup loop (lines 150-154): canonicalize each entry, keep
it only when its key is unseen. -/
def addSites : List JVal → List String → List JVal → List JVal × List String
  | merged, seen, [] => (merged, seen)
  | merged, seen, s :: rest =>
    let key := normalize_site s
    if key ∈ seen then addSites merged seen rest
    else addSites (merged ++ [s]) (key :: seen) rest

/-- The per-URL loop (lines 146-156), parameterized by the fetch
collaborator (`fetch_and_extract http` in `main`). `break` fires when
`args.max` is truthy (nonzero) and `processed` has reached it. -/
def mergeLoop (fetch : JVal → List JVal) (maxc : Int) : MergeState → List JVal → MergeState
  | st, [] => st
  | st, u :: rest =>
    if maxc ≠ 0 ∧ maxc ≤ (st.processed : Int) then st
    else
      let p := addSites st.merged st.seen (fetch u)
      mergeLoop fetch maxc
        ⟨p.1, p.2, st.processed + 1, st.attempts ++ [u], st.delays + 1⟩ rest

/-- The whole merge section of `main`, from the empty state. -/
def runMerge (fetch : JVal → List JVal) (maxc : Int) (urls : List JVal) : MergeState :=
  mergeLoop fetch maxc ⟨[], [], 0, [], 0⟩ urls

/-! ## Proof auxiliaries (not part of the source model) -/

/-- Value of a little-endian decimal digit list. -/
def ofDigs : List Nat → Nat
  | [] => 0
  | d :: ds => d + 10 * ofDigs ds

/-- The rest of a serialized stream does not begin with a decimal digit —
the follow condition that makes a maximal digit run unambiguous. -/
def noDigStart : List Char → Prop
  | [] => True
  | c :: _ => c.isDigit = false

/-- The strict key order: `keyLe` together with distinct keys. Used only
to compare sorted entry lists of well-formed objects. -/
def keyLtKey (p q : String × JVal) : Prop := keyLe p q ∧ p.1 ≠ q.1

instance : IsTotal (String × JVal) keyLe :=
  ⟨fun p q => by
    unfold keyLe strLe
    generalize p.1.data = as
    generalize q.1.data = bs
    induction as generalizing bs with
    | nil => left; rfl
    | cons a as ih =>
      cases bs with
      | nil => right; rfl
      | cons b bs =>
        by_cases hab : a.toNat < b.toNat
        · left; simp [charsLe, hab]
        · by_cases hba : b.toNat < a.toNat
          · right; simp [charsLe, hba]
          · rcases ih bs with h | h
            · left; simp [charsLe, hab, hba, h]
            · right; simp [charsLe, hab, hba, h]⟩

instance : IsTrans (String × JVal) keyLe :=
  ⟨fun p q t hpq hqt => by
    unfold keyLe strLe at *
    revert hpq hqt
    generalize p.1.data = as
    generalize q.1.data = bs
    generalize t.1.data = cs
    induction as generalizing bs cs with
    | nil => intro _ _; rfl
    | cons a as ih =>
      cases bs with
      | nil => intro h _; simp [charsLe] at h
      | cons b bs =>
        cases cs with
        | nil => intro _ h; simp [charsLe] at h
        | cons c cs =>
          intro h1 h2
          simp only [charsLe] at h1 h2 ⊢
          split_ifs at h1 h2 ⊢ <;> first | rfl | omega | exact ih bs cs h1 h2⟩

instance : IsAntisymm (String × JVal) keyLtKey :=
  ⟨fun p q hpq hqp => by
    exfalso
    apply hpq.2
    have h1 := hpq.1
    have h2 := hqp.1
    unfold keyLe strLe at h1 h2
    have hd : p.1.data = q.1.data := by
      revert h1 h2
      generalize p.1.data = as
      generalize q.1.data = bs
      induction as generalizing bs with
      | nil =>
        cases bs with
        | nil => intro _ _; rfl
        | cons b bs => intro _ h; simp [charsLe] at h
      | cons a as ih =>
        cases bs with
        | nil => intro h _; simp [charsLe] at h
        | cons b bs =>
          intro h1 h2
          simp only [charsLe] at h1 h2
          by_cases hab : a.toNat < b.toNat
          · rw [if_pos hab] at h1
            rw [if_neg (by omega), if_pos hab] at h2
            exact absurd h2 (by simp)
          · by_cases hba : b.toNat < a.toNat
            · rw [if_neg hab, if_pos hba] at h1
              exact absurd h1 (by simp)
            · rw [if_neg hab, if_neg hba] at h1
              rw [if_neg hba, if_neg hab] at h2
              have hab2 : a.toNat = b.toNat := by omega
              have hab3 : a = b :=
                Char.eq_of_val_eq (UInt32.eq_of_toBitVec_eq (BitVec.eq_of_toNat_eq hab2))
              rw [hab3, ih bs h1 h2]
    exact String.ext hd⟩

/-! ## Structural equality and well-formedness of JSON values -/

/-- A well-formed JSON value: every object has distinct keys (which is
what `json.loads` produces — Python dicts cannot hold a key twice). -/
inductive WfJ : JVal → Prop where
  | null : WfJ .jnull
  | bool (b : Bool) : WfJ (.jbool b)
  | num (n : Int) : WfJ (.jnum n)
  | str (s : String) : WfJ (.jstr s)
  | arr (xs : List JVal) : (∀ v, v ∈ xs → WfJ v) → WfJ (.jarr xs)
  | obj (kvs : List (String × JVal)) : (kvs.map Prod.fst).Nodup →
      (∀ p, p ∈ kvs → WfJ p.2) → WfJ (.jobj kvs)

mutual

/-- Structural equality of JSON values: scalars by equality, arrays by
value and order, objects by their key/value pairs with keys compared by
name and order ignored (each pair of the left object matches some pair
of the right object with the same key and a structurally equal value,
and the objects have the same number of pairs). -/
inductive StructEq : JVal → JVal → Prop where
  | null : StructEq .jnull .jnull
  | bool (b : Bool) : StructEq (.jbool b) (.jbool b)
  | num (n : Int) : StructEq (.jnum n) (.jnum n)
  | str (s : String) : StructEq (.jstr s) (.jstr s)
  | arr (xs ys : List JVal) : xs.length = ys.length →
      (∀ i (h1 : i < xs.length) (h2 : i < ys.length),
        StructEq (xs.get ⟨i, h1⟩) (ys.get ⟨i, h2⟩)) →
      StructEq (.jarr xs) (.jarr ys)
  | obj (xs ys : List (String × JVal)) : xs.length = ys.length →
      (∀ k v, (k, v) ∈ xs → KeyMatch k v ys) →
      StructEq (.jobj xs) (.jobj ys)

/-- `KeyMatch k v ys`: some pair of `ys` has key `k` and a value
structurally equal to `v`. -/
inductive KeyMatch : String → JVal → List (String × JVal) → Prop where
  | head (k : String) (v w : JVal) (rest : List (String × JVal)) :
      StructEq v w → KeyMatch k v ((k, w) :: rest)
  | tail (k : String) (v : JVal) (p : String × JVal) (rest : List (String × JVal)) :
      KeyMatch k v rest → KeyMatch k v (p :: rest)

end

/-- `KeyMatch` unfolded to its intended meaning. -/
theorem keyMatch_iff (k : String) (v : JVal) (ys : List (String × JVal)) :
    KeyMatch k v ys ↔ ∃ w, (k, w) ∈ ys ∧ StructEq v w := by
  constructor
  · intro h
    induction ys with
    | nil => cases h
    | cons p rest ih =>
      cases h with
      | head k v w rest hvw => exact ⟨w, List.mem_cons_self _ _, hvw⟩
      | tail k v p rest hk =>
        obtain ⟨w, hw, hvw⟩ := ih hk
        exact ⟨w, List.mem_cons_of_mem _ hw, hvw⟩
  · intro ⟨w, hw, hvw⟩
    induction ys with
    | nil => cases hw
    | cons p rest ih =>
      rcases List.mem_cons.mp hw with h | h
      · cases h; exact KeyMatch.head _ _ _ _ hvw
      · exact KeyMatch.tail _ _ _ _ (ih h)

/-! ## C3, C4, C5: the extractor -/

/-- C3: `extract_sites` applies its strategies in strict priority order
with first success winning: on `{"sites": [1,2]}` the strict
whole-document parse succeeds with the recognized shape and returns
`[1, 2]`; on `prefix garbage "sites": [1, 2,] suffix` the strict parse
fails, the regex captures `[1, 2,]`, parsing the capture fails (trailing
comma), the single textual repair turns it into `[1, 2]`, which parses,
and the final result is `[1, 2]`. -/
theorem claim_C3_extractor_priority :
    (pyLoads "\x7b\"sites\": [1,2]\x7d"
        = some (.jobj [("sites", .jarr [.jnum 1, .jnum 2])])
      ∧ extract_sites_from_text "\x7b\"sites\": [1,2]\x7d" = [.jnum 1, .jnum 2])
    ∧ (pyLoads "prefix garbage \"sites\": [1, 2,] suffix" = none
      ∧ sitesSearch "prefix garbage \"sites\": [1, 2,] suffix" = some "[1, 2,]"
      ∧ pyLoads "[1, 2,]" = none
      ∧ stripTrailingCommas "[1, 2,]" = "[1, 2]"
      ∧ pyLoads "[1, 2]" = some (.jarr [.jnum 1, .jnum 2])
      ∧ extract_sites_from_text "prefix garbage \"sites\": [1, 2,] suffix"
        = [.jnum 1, .jnum 2]) :=
  ⟨⟨rfl, rfl⟩, rfl, rfl, rfl, rfl, rfl, rfl⟩

/-- C4: when the whole-document parse succeeds but the shape is neither
a dict with a `sites` list nor a bare list, `extract_sites` does not
return empty early: it runs the regex-recovery path on the same text. -/
theorem claim_C4_shape_fallthrough :
    ∀ (text : String) (v : JVal), pyLoads text = some v → shape1 v = none →
      extract_sites_from_text text = regexRecover text := by
  intro text v hv hs
  simp [extract_sites_from_text, hv, hs]

/-- Witness for C4: `{"x": {"sites": [1, 2]}}` is valid JSON of an
unrecognized shape (no top-level `sites` key); extraction falls through
to the regex path, which recovers `[1, 2]` — both paths were attempted
and the result is not empty. -/
theorem claim_C4_shape_fallthrough_witness :
    extract_sites_from_text "\x7b\"x\": \x7b\"sites\": [1, 2]\x7d\x7d"
        = regexRecover "\x7b\"x\": \x7b\"sites\": [1, 2]\x7d\x7d"
      ∧ regexRecover "\x7b\"x\": \x7b\"sites\": [1, 2]\x7d\x7d" = [.jnum 1, .jnum 2] :=
  ⟨claim_C4_shape_fallthrough _
      (.jobj [("x", .jobj [("sites", .jarr [.jnum 1, .jnum 2])])]) rfl rfl,
    rfl⟩

/-- C5: `extract_sites` is total — it is a plain function into lists of
JSON values (no exception channel exists in the model, mirroring the
source's catch-all handlers). A bare JSON array is returned directly;
text with no parseable JSON and no `"sites"` pattern yields the empty
list, which is an ordinary value, not an error. -/
theorem claim_C5_extract_total :
    (∀ text : String, pyLoads text = none → sitesSearchAux text.data = none →
      extract_sites_from_text text = [])
    ∧ extract_sites_from_text "[ \x7b\"a\":1\x7d ]" = [.jobj [("a", .jnum 1)]]
    ∧ extract_sites_from_text "hello world" = ([] : List JVal) := by
  refine ⟨?_, rfl, rfl⟩
  intro text hp hs
  simp [extract_sites_from_text, regexRecover, sitesSearch, hp, hs]

/-- Witness for C5: `"hello world"` has no JSON and no `"sites"`
pattern; extraction returns the empty sequence. -/
theorem claim_C5_extract_total_witness :
    pyLoads "hello world" = none ∧ sitesSearchAux "hello world".data = none
      ∧ extract_sites_from_text "hello world" = [] :=
  ⟨rfl, rfl, claim_C5_extract_total.1 "hello world" rfl rfl⟩

/-! ## Decimal serialization lemmas -/

theorem natDigitsAux_correct : ∀ fuel n, n ≤ fuel → ofDigs (natDigitsAux fuel n) = n := by
  intro fuel
  induction fuel with
  | zero =>
    intro n h
    have : n = 0 := by omega
    subst this
    rfl
  | succ fuel ih =>
    intro n h
    by_cases h0 : n = 0
    · subst h0; rfl
    · simp only [natDigitsAux, h0, if_false, ofDigs]
      rw [ih (n / 10) (by omega)]
      omega

theorem natDigitsAux_lt : ∀ fuel n d, d ∈ natDigitsAux fuel n → d < 10 := by
  intro fuel
  induction fuel with
  | zero => intro n d h; simp [natDigitsAux] at h
  | succ fuel ih =>
    intro n d h
    by_cases h0 : n = 0
    · subst h0; simp [natDigitsAux] at h
    · simp only [natDigitsAux, h0, if_false, List.mem_cons] at h
      rcases h with h | h
      · omega
      · exact ih _ _ h

theorem digitCh_isDigit : ∀ d, d < 10 → (digitCh d).isDigit = true := by decide

theorem digitCh_inj : ∀ d, d < 10 → ∀ e, e < 10 → digitCh d = digitCh e → d = e := by decide

theorem natChars_digit (n : Nat) : ∀ c ∈ natChars n, c.isDigit = true := by
  intro c hc
  unfold natChars at hc
  by_cases h0 : n = 0
  · simp [h0] at hc
    simp [hc]
  · simp only [h0, if_false, List.mem_map, List.mem_reverse] at hc
    obtain ⟨d, hd, rfl⟩ := hc
    exact digitCh_isDigit d (natDigitsAux_lt _ _ _ hd)

theorem natDigitsAux_ne_nil (fuel n : Nat) (h0 : n ≠ 0) (hf : fuel ≠ 0) :
    natDigitsAux fuel n ≠ [] := by
  cases fuel with
  | zero => exact absurd rfl hf
  | succ fuel => simp [natDigitsAux, h0]

theorem natChars_ne_nil (n : Nat) : natChars n ≠ [] := by
  unfold natChars
  by_cases h0 : n = 0
  · simp [h0]
  · simp only [h0, if_false]
    intro h
    apply natDigitsAux_ne_nil n n h0 h0
    simpa using h

theorem mapDigitCh_inj : ∀ ds es : List Nat, (∀ d ∈ ds, d < 10) → (∀ e ∈ es, e < 10) →
    ds.map digitCh = es.map digitCh → ds = es := by
  intro ds
  induction ds with
  | nil =>
    intro es _ _ h
    cases es with
    | nil => rfl
    | cons e es => simp at h
  | cons d ds ih =>
    intro es hd he h
    cases es with
    | nil => simp at h
    | cons e es =>
      simp only [List.map_cons, List.cons.injEq] at h
      have h1 := digitCh_inj d (hd d (by simp)) e (he e (by simp)) h.1
      rw [h1, ih es (fun x hx => hd x (by simp [hx])) (fun x hx => he x (by simp [hx])) h.2]

theorem natChars_inj : ∀ n m, natChars n = natChars m → n = m := by
  intro n m h
  unfold natChars at h
  by_cases hn : n = 0 <;> by_cases hm : m = 0
  · omega
  · exfalso
    simp only [hn, if_true, hm, if_false] at h
    have : (natDigitsAux m m).reverse.map digitCh = ['0'] := h.symm
    have hds : (natDigitsAux m m).reverse = [0] := by
      apply mapDigitCh_inj
      · intro d hd
        exact natDigitsAux_lt _ _ _ (List.mem_reverse.mp hd)
      · intro e he
        simp at he
        omega
      · simpa using this
    have : natDigitsAux m m = [0] := by
      have := congrArg List.reverse hds
      simpa using this
    have hval := natDigitsAux_correct m m le_rfl
    rw [this] at hval
    simp [ofDigs] at hval
    omega
  · exfalso
    simp only [hn, if_false, hm, if_true] at h
    have hds : (natDigitsAux n n).reverse = [0] := by
      apply mapDigitCh_inj
      · intro d hd
        exact natDigitsAux_lt _ _ _ (List.mem_reverse.mp hd)
      · intro e he
        simp at he
        omega
      · simpa using h
    have : natDigitsAux n n = [0] := by
      have := congrArg List.reverse hds
      simpa using this
    have hval := natDigitsAux_correct n n le_rfl
    rw [this] at hval
    simp [ofDigs] at hval
    omega
  · simp only [hn, hm, if_false] at h
    have hds : (natDigitsAux n n).reverse = (natDigitsAux m m).reverse := by
      apply mapDigitCh_inj _ _ _ _ h
      · intro d hd
        exact natDigitsAux_lt _ _ _ (List.mem_reverse.mp hd)
      · intro e he
        exact natDigitsAux_lt _ _ _ (List.mem_reverse.mp he)
    have hds2 : natDigitsAux n n = natDigitsAux m m := by
      have := congrArg List.reverse hds
      simpa using this
    have h1 := natDigitsAux_correct n n le_rfl
    have h2 := natDigitsAux_correct m m le_rfl
    rw [hds2] at h1
    omega

theorem digitRun_unamb : ∀ (d1 d2 r1 r2 : List Char),
    (∀ c ∈ d1, c.isDigit = true) → (∀ c ∈ d2, c.isDigit = true) →
    noDigStart r1 → noDigStart r2 → d1 ++ r1 = d2 ++ r2 → d1 = d2 ∧ r1 = r2 := by
  intro d1
  induction d1 with
  | nil =>
    intro d2 r1 r2 _ h2 hr1 _ heq
    cases d2 with
    | nil => exact ⟨rfl, heq⟩
    | cons b bs =>
      exfalso
      simp only [List.nil_append] at heq
      subst heq
      have hb : b.isDigit = false := hr1
      rw [h2 b (by simp)] at hb
      cases hb
  | cons a as ih =>
    intro d2 r1 r2 h1 h2 hr1 hr2 heq
    cases d2 with
    | nil =>
      exfalso
      simp only [List.nil_append] at heq
      subst heq
      have ha : a.isDigit = false := hr2
      rw [h1 a (by simp)] at ha
      cases ha
    | cons b bs =>
      simp only [List.cons_append, List.cons.injEq] at heq
      obtain ⟨rfl, heq⟩ := heq
      obtain ⟨h3, h4⟩ := ih bs r1 r2 (fun c hc => h1 c (by simp [hc]))
        (fun c hc => h2 c (by simp [hc])) hr1 hr2 heq
      exact ⟨by rw [h3], h4⟩

theorem natChars_head (n : Nat) : ∃ c t, natChars n = c :: t ∧ c.isDigit = true := by
  cases h : natChars n with
  | nil => exact absurd h (natChars_ne_nil n)
  | cons c t =>
    refine ⟨c, t, rfl, natChars_digit n c ?_⟩
    rw [h]
    simp

theorem intChars_unamb : ∀ (i j : Int) (r1 r2 : List Char), noDigStart r1 → noDigStart r2 →
    intChars i ++ r1 = intChars j ++ r2 → i = j ∧ r1 = r2 := by
  intro i j r1 r2 hr1 hr2 heq
  unfold intChars at heq
  by_cases hi : i < 0 <;> by_cases hj : j < 0 <;> simp only [hi, hj, if_true, if_false] at heq
  · simp only [List.cons_append, List.cons.injEq] at heq
    obtain ⟨h1, h2⟩ := digitRun_unamb _ _ _ _ (natChars_digit _) (natChars_digit _) hr1 hr2 heq.2
    have := natChars_inj _ _ h1
    exact ⟨by omega, h2⟩
  · exfalso
    obtain ⟨c, t, hct, hcd⟩ := natChars_head j.toNat
    rw [hct] at heq
    simp only [List.cons_append, List.cons.injEq] at heq
    have : ('-').isDigit = true := heq.1 ▸ hcd
    cases this
  · exfalso
    obtain ⟨c, t, hct, hcd⟩ := natChars_head i.toNat
    rw [hct] at heq
    simp only [List.cons_append, List.cons.injEq] at heq
    have : ('-').isDigit = true := heq.1.symm ▸ hcd
    cases this
  · obtain ⟨h1, h2⟩ := digitRun_unamb _ _ _ _ (natChars_digit _) (natChars_digit _) hr1 hr2 heq
    have := natChars_inj _ _ h1
    exact ⟨by omega, h2⟩

/-! ## String-escape lemmas -/

theorem hexCh_inj : ∀ d, d < 16 → ∀ e, e < 16 → hexCh d = hexCh e → d = e := by decide

theorem escC_spec (c : Char) :
    (¬c = '"' ∧ ¬c = '\\' ∧ ¬c.toNat < 0x20 ∧ escC c = [c])
    ∨ (∃ x, escC c = ['\\', x] ∧
        ((c = '"' ∧ x = '"') ∨ (c = '\\' ∧ x = '\\') ∨ (c = '\x08' ∧ x = 'b')
          ∨ (c = '\x09' ∧ x = 't') ∨ (c = '\x0a' ∧ x = 'n') ∨ (c = '\x0c' ∧ x = 'f')
          ∨ (c = '\x0d' ∧ x = 'r')))
    ∨ (c.toNat < 0x20
        ∧ escC c = ['\\', 'u', '0', '0', hexCh (c.toNat / 16), hexCh (c.toNat % 16)]) := by
  unfold escC
  split_ifs with h1 h2 h3 h4 h5 h6 h7 h8
  · exact Or.inr (Or.inl ⟨'"', rfl, Or.inl ⟨h1, rfl⟩⟩)
  · exact Or.inr (Or.inl ⟨'\\', rfl, Or.inr (Or.inl ⟨h2, rfl⟩)⟩)
  · exact Or.inr (Or.inl ⟨'b', rfl, by simp [h4]⟩)
  · exact Or.inr (Or.inl ⟨'t', rfl, by simp [h5]⟩)
  · exact Or.inr (Or.inl ⟨'n', rfl, by simp [h6]⟩)
  · exact Or.inr (Or.inl ⟨'f', rfl, by simp [h7]⟩)
  · exact Or.inr (Or.inl ⟨'r', rfl, by simp [h8]⟩)
  · exact Or.inr (Or.inr ⟨h3, rfl⟩)
  · exact Or.inl ⟨h1, h2, h3, rfl⟩

theorem escC_ne_quote_cons (c : Char) (t : List Char) : escC c ≠ '"' :: t := by
  rcases escC_spec c with ⟨hne, _, _, h⟩ | ⟨x, h, _⟩ | ⟨_, h⟩ <;> rw [h]
  · intro hh
    injection hh with hh1 _
    exact hne hh1
  · simp
  · simp

theorem escC_pf : ∀ c c' (t t' : List Char), escC c ++ t = escC c' ++ t' →
    c = c' ∧ t = t' := by
  intro c c' t t' heq
  rcases escC_spec c with ⟨hq, hb, hc, h⟩ | ⟨x, h, hx⟩ | ⟨hc, h⟩ <;>
    rcases escC_spec c' with ⟨hq', hb', hc', h'⟩ | ⟨x', h', hx'⟩ | ⟨hc', h'⟩ <;>
      rw [h, h'] at heq <;> simp only [List.cons_append, List.nil_append,
        List.cons.injEq] at heq
  · exact ⟨heq.1, heq.2⟩
  · exact absurd heq.1 hb
  · exact absurd heq.1 hb
  · exact absurd heq.1.symm hb'
  · obtain ⟨-, h2, h3⟩ := heq
    subst h2
    rcases hx with ⟨rfl, rfl⟩ | ⟨rfl, rfl⟩ | ⟨rfl, rfl⟩ | ⟨rfl, rfl⟩ | ⟨rfl, rfl⟩
      | ⟨rfl, rfl⟩ | ⟨rfl, rfl⟩ <;>
      rcases hx' with ⟨rfl, h⟩ | ⟨rfl, h⟩ | ⟨rfl, h⟩ | ⟨rfl, h⟩ | ⟨rfl, h⟩
        | ⟨rfl, h⟩ | ⟨rfl, h⟩ <;> simp_all
  · obtain ⟨-, h2, -⟩ := heq
    rcases hx with ⟨rfl, rfl⟩ | ⟨rfl, rfl⟩ | ⟨rfl, rfl⟩ | ⟨rfl, rfl⟩ | ⟨rfl, rfl⟩
      | ⟨rfl, rfl⟩ | ⟨rfl, rfl⟩ <;> simp_all
  · exact absurd heq.1.symm hb'
  · obtain ⟨-, h2, -⟩ := heq
    rcases hx' with ⟨rfl, rfl⟩ | ⟨rfl, rfl⟩ | ⟨rfl, rfl⟩ | ⟨rfl, rfl⟩ | ⟨rfl, rfl⟩
      | ⟨rfl, rfl⟩ | ⟨rfl, rfl⟩ <;> simp_all
  · obtain ⟨-, -, -, -, h5, h6, h7⟩ := heq
    have e1 : c.toNat / 16 = c'.toNat / 16 :=
      hexCh_inj _ (by omega) _ (by omega) h5
    have e2 : c.toNat % 16 = c'.toNat % 16 :=
      hexCh_inj _ (by omega) _ (by omega) h6
    have : c.toNat = c'.toNat := by omega
    exact ⟨Char.eq_of_val_eq (UInt32.eq_of_toBitVec_eq (BitVec.eq_of_toNat_eq this)), h7⟩

theorem escBody_unamb : ∀ (s s' r r' : List Char),
    escBody s ++ '"' :: r = escBody s' ++ '"' :: r' → s = s' ∧ r = r' := by
  intro s
  induction s with
  | nil =>
    intro s' r r' heq
    cases s' with
    | nil => simpa using heq
    | cons c cs =>
      exfalso
      simp only [escBody, List.nil_append, List.append_assoc] at heq
      rcases escC_spec c with ⟨hq, -, -, h⟩ | ⟨x, h, -⟩ | ⟨-, h⟩ <;> rw [h] at heq <;>
        simp only [List.cons_append, List.nil_append, List.cons.injEq] at heq
      · exact hq heq.1.symm
      · simp at heq
      · simp at heq
  | cons c cs ih =>
    intro s' r r' heq
    cases s' with
    | nil =>
      exfalso
      simp only [escBody, List.nil_append, List.append_assoc] at heq
      rcases escC_spec c with ⟨hq, -, -, h⟩ | ⟨x, h, -⟩ | ⟨-, h⟩ <;> rw [h] at heq <;>
        simp only [List.cons_append, List.nil_append, List.cons.injEq] at heq
      · exact hq heq.1
      · simp at heq
      · simp at heq
    | cons c' cs' =>
      simp only [escBody, List.append_assoc] at heq
      obtain ⟨h1, h2⟩ := escC_pf c c' _ _ heq
      obtain ⟨h3, h4⟩ := ih cs' r r' h2
      exact ⟨by rw [h1, h3], h4⟩

/-! ## Serializer head characters -/

theorem numHeadClass (n : Int) :
    vheadChar (.jnum n) = '-' ∨ (vheadChar (.jnum n)).isDigit = true := by
  unfold vheadChar
  by_cases h : n < 0
  · simp [h]
  · right
    obtain ⟨c, t, hct, hcd⟩ := natChars_head n.toNat
    simp [h, hct, hcd]

theorem numHead_ne (n : Int) (c : Char) (h1 : c ≠ '-') (h2 : c.isDigit = false) :
    vheadChar (.jnum n) ≠ c := by
  rcases numHeadClass n with hh | hh
  · rw [hh]
    exact fun he => h1 he.symm
  · intro he
    rw [he, h2] at hh
    cases hh

theorem serC_head : ∀ v : JVal, ∃ t, serC v = vheadChar v :: t := by
  intro v
  cases v with
  | jnull => exact ⟨['u', 'l', 'l'], by simp [serC, vheadChar]⟩
  | jbool b =>
    cases b
    · exact ⟨['a', 'l', 's', 'e'], by simp [serC, vheadChar]⟩
    · exact ⟨['r', 'u', 'e'], by simp [serC, vheadChar]⟩
  | jnum n =>
    by_cases h : n < 0
    · exact ⟨natChars n.natAbs, by simp [serC, intChars, vheadChar, h]⟩
    · obtain ⟨c, t, hct, -⟩ := natChars_head n.toNat
      refine ⟨t, ?_⟩
      simp [serC, intChars, vheadChar, h, hct]
  | jstr s => exact ⟨escBody s.data ++ ['"'], by simp [serC, encChars, vheadChar]⟩
  | jarr xs => exact ⟨serCList xs ++ [']'], by simp [serC, vheadChar]⟩
  | jobj kvs => exact ⟨serCObj kvs ++ ['\x7d'], by simp [serC, vheadChar]⟩

theorem serC_head_eq {v v' : JVal} {r r' : List Char} (h : serC v ++ r = serC v' ++ r') :
    vheadChar v = vheadChar v' := by
  obtain ⟨t, ht⟩ := serC_head v
  obtain ⟨t', ht'⟩ := serC_head v'
  rw [ht, ht'] at h
  simp only [List.cons_append, List.cons.injEq] at h
  exact h.1

theorem vheadChar_ne_rbracket (v : JVal) : vheadChar v ≠ ']' := by
  cases v with
  | jnum n => exact numHead_ne n ']' (by decide) (by decide)
  | jbool b => cases b <;> simp [vheadChar]
  | jnull => simp [vheadChar]
  | jstr s => simp [vheadChar]
  | jarr xs => simp [vheadChar]
  | jobj kvs => simp [vheadChar]

theorem noDig_cons (c : Char) (t : List Char) (h : c.isDigit = false) : noDigStart (c :: t) := h

theorem noDig_listSep (xs : List JVal) (r : List Char) : noDigStart (listSep xs ++ ']' :: r) := by
  cases xs with
  | nil => exact noDig_cons _ _ (by decide)
  | cons v vs => exact noDig_cons _ _ (by decide)

theorem noDig_objSep (ps : List (String × JVal)) (r : List Char) :
    noDigStart (objSep ps ++ '\x7d' :: r) := by
  cases ps with
  | nil => exact noDig_cons _ _ (by decide)
  | cons p ps => exact noDig_cons _ _ (by decide)

theorem serCList_cons (x : JVal) (xs : List JVal) :
    serCList (x :: xs) = serC x ++ listSep xs := by
  cases xs <;> simp [serCList, listSep]

theorem serCObj_cons (k : String) (v : JVal) (ps : List (String × JVal)) :
    serCObj ((k, v) :: ps) = encChars k.data ++ ':' :: ' ' :: serC v ++ objSep ps := by
  cases ps <;> simp [serCObj, objSep]

/-! ## Unambiguity of the serialization -/

mutual

theorem serC_unamb (v v' : JVal) (r r' : List Char) (hr : noDigStart r)
    (hr' : noDigStart r') (heq : serC v ++ r = serC v' ++ r') : v = v' ∧ r = r' := by
  have hhead := serC_head_eq heq
  cases v with
  | jnull =>
    cases v' with
    | jnull =>
      refine ⟨rfl, ?_⟩
      simp [serC] at heq
      exact heq
    | jbool b => exact absurd hhead (by cases b <;> simp [vheadChar])
    | jnum n => exact absurd hhead.symm (numHead_ne n 'n' (by decide) (by decide))
    | jstr s => exact absurd hhead (by simp [vheadChar])
    | jarr xs => exact absurd hhead (by simp [vheadChar])
    | jobj kvs => exact absurd hhead (by simp [vheadChar])
  | jbool b =>
    cases v' with
    | jnull => exact absurd hhead (by cases b <;> simp [vheadChar])
    | jbool b' =>
      cases b <;> cases b'
      · refine ⟨rfl, ?_⟩
        simp [serC] at heq
        exact heq
      · exact absurd hhead (by simp [vheadChar])
      · exact absurd hhead (by simp [vheadChar])
      · refine ⟨rfl, ?_⟩
        simp [serC] at heq
        exact heq
    | jnum n =>
      exact absurd hhead.symm (by cases b <;> exact numHead_ne n _ (by decide) (by decide))
    | jstr s => exact absurd hhead (by cases b <;> simp [vheadChar])
    | jarr xs => exact absurd hhead (by cases b <;> simp [vheadChar])
    | jobj kvs => exact absurd hhead (by cases b <;> simp [vheadChar])
  | jnum n =>
    cases v' with
    | jnull => exact absurd hhead (numHead_ne n 'n' (by decide) (by decide))
    | jbool b =>
      exact absurd hhead (by cases b <;> exact numHead_ne n _ (by decide) (by decide))
    | jnum m =>
      simp only [serC] at heq
      obtain ⟨h1, h2⟩ := intChars_unamb n m r r' hr hr' heq
      exact ⟨by rw [h1], h2⟩
    | jstr s => exact absurd hhead (numHead_ne n '"' (by decide) (by decide))
    | jarr xs => exact absurd hhead (numHead_ne n '[' (by decide) (by decide))
    | jobj kvs => exact absurd hhead (numHead_ne n '\x7b' (by decide) (by decide))
  | jstr s =>
    cases v' with
    | jnull => exact absurd hhead (by simp [vheadChar])
    | jbool b => exact absurd hhead (by cases b <;> simp [vheadChar])
    | jnum n => exact absurd hhead.symm (numHead_ne n '"' (by decide) (by decide))
    | jstr s' =>
      simp only [serC, encChars, List.cons_append, List.append_assoc,
        List.singleton_append, List.cons.injEq, true_and] at heq
      obtain ⟨h1, h2⟩ := escBody_unamb s.data s'.data r r' heq
      exact ⟨by rw [String.ext h1], h2⟩
    | jarr xs => exact absurd hhead (by simp [vheadChar])
    | jobj kvs => exact absurd hhead (by simp [vheadChar])
  | jarr xs =>
    cases v' with
    | jnull => exact absurd hhead (by simp [vheadChar])
    | jbool b => exact absurd hhead (by cases b <;> simp [vheadChar])
    | jnum n => exact absurd hhead.symm (numHead_ne n '[' (by decide) (by decide))
    | jstr s => exact absurd hhead (by simp [vheadChar])
    | jarr ys =>
      simp only [serC, List.cons_append, List.append_assoc, List.singleton_append,
        List.cons.injEq, true_and] at heq
      obtain ⟨h1, h2⟩ := serCList_unamb xs ys r r' heq
      exact ⟨by rw [h1], h2⟩
    | jobj kvs => exact absurd hhead (by simp [vheadChar])
  | jobj kvs =>
    cases v' with
    | jnull => exact absurd hhead (by simp [vheadChar])
    | jbool b => exact absurd hhead (by cases b <;> simp [vheadChar])
    | jnum n => exact absurd hhead.symm (numHead_ne n '\x7b' (by decide) (by decide))
    | jstr s => exact absurd hhead (by simp [vheadChar])
    | jarr xs => exact absurd hhead (by simp [vheadChar])
    | jobj kvs' =>
      simp only [serC, List.cons_append, List.append_assoc, List.singleton_append,
        List.cons.injEq, true_and] at heq
      obtain ⟨h1, h2⟩ := serCObj_unamb kvs kvs' r r' heq
      exact ⟨by rw [h1], h2⟩

theorem serCList_unamb (xs ys : List JVal) (r r' : List Char)
    (heq : serCList xs ++ ']' :: r = serCList ys ++ ']' :: r') : xs = ys ∧ r = r' := by
  cases xs with
  | nil =>
    cases ys with
    | nil =>
      simp only [serCList, List.nil_append, List.cons.injEq, true_and] at heq
      exact ⟨rfl, heq⟩
    | cons y ys =>
      exfalso
      rw [serCList_cons] at heq
      obtain ⟨t, ht⟩ := serC_head y
      rw [ht] at heq
      simp only [serCList, List.nil_append, List.cons_append, List.append_assoc,
        List.cons.injEq] at heq
      exact vheadChar_ne_rbracket y heq.1.symm
  | cons x xs =>
    cases ys with
    | nil =>
      exfalso
      rw [serCList_cons] at heq
      obtain ⟨t, ht⟩ := serC_head x
      rw [ht] at heq
      simp only [serCList, List.nil_append, List.cons_append, List.append_assoc,
        List.cons.injEq] at heq
      exact vheadChar_ne_rbracket x heq.1
    | cons y ys =>
      rw [serCList_cons, serCList_cons, List.append_assoc, List.append_assoc] at heq
      obtain ⟨hxy, hrest⟩ :=
        serC_unamb x y _ _ (noDig_listSep xs r) (noDig_listSep ys r') heq
      cases xs with
      | nil =>
        cases ys with
        | nil =>
          simp only [listSep, List.nil_append, List.cons.injEq, true_and] at hrest
          exact ⟨by rw [hxy], hrest⟩
        | cons z zs =>
          exfalso
          simp only [listSep, List.nil_append, List.cons_append, List.cons.injEq] at hrest
          exact absurd hrest.1 (by decide)
      | cons z zs =>
        cases ys with
        | nil =>
          exfalso
          simp only [listSep, List.nil_append, List.cons_append, List.cons.injEq] at hrest
          exact absurd hrest.1 (by decide)
        | cons w ws =>
          simp only [listSep, List.cons_append, List.cons.injEq, true_and] at hrest
          obtain ⟨h1, h2⟩ := serCList_unamb (z :: zs) (w :: ws) r r' hrest
          exact ⟨by rw [hxy, h1], h2⟩

theorem serCObj_unamb (xs ys : List (String × JVal)) (r r' : List Char)
    (heq : serCObj xs ++ '\x7d' :: r = serCObj ys ++ '\x7d' :: r') : xs = ys ∧ r = r' := by
  cases xs with
  | nil =>
    cases ys with
    | nil =>
      simp only [serCObj, List.nil_append, List.cons.injEq, true_and] at heq
      exact ⟨rfl, heq⟩
    | cons p ps =>
      exfalso
      obtain ⟨k, v⟩ := p
      rw [serCObj_cons] at heq
      simp only [serCObj, encChars, List.nil_append, List.cons_append, List.append_assoc,
        List.cons.injEq] at heq
      exact absurd heq.1 (by decide)
  | cons p ps =>
    cases ys with
    | nil =>
      exfalso
      obtain ⟨k, v⟩ := p
      rw [serCObj_cons] at heq
      simp only [serCObj, encChars, List.nil_append, List.cons_append, List.append_assoc,
        List.cons.injEq] at heq
      exact absurd heq.1 (by decide)
    | cons p' ps' =>
      obtain ⟨k, v⟩ := p
      obtain ⟨k', v'⟩ := p'
      rw [serCObj_cons, serCObj_cons] at heq
      simp only [encChars, List.cons_append, List.nil_append, List.append_assoc,
        List.singleton_append, List.cons.injEq, true_and] at heq
      obtain ⟨hk, hrest⟩ := escBody_unamb k.data k'.data _ _ heq
      simp only [List.cons.injEq, true_and] at hrest
      obtain ⟨hv, hrest2⟩ :=
        serC_unamb v v' _ _ (noDig_objSep ps r) (noDig_objSep ps' r') hrest
      cases ps with
      | nil =>
        cases ps' with
        | nil =>
          simp only [objSep, List.nil_append, List.cons.injEq, true_and] at hrest2
          exact ⟨by rw [String.ext hk, hv], hrest2⟩
        | cons q qs =>
          exfalso
          simp only [objSep, List.nil_append, List.cons_append, List.cons.injEq] at hrest2
          exact absurd hrest2.1 (by decide)
      | cons q qs =>
        cases ps' with
        | nil =>
          exfalso
          simp only [objSep, List.nil_append, List.cons_append, List.cons.injEq] at hrest2
          exact absurd hrest2.1 (by decide)
        | cons q' qs' =>
          simp only [objSep, List.cons_append, List.cons.injEq, true_and] at hrest2
          obtain ⟨hps, hrr⟩ := serCObj_unamb (q :: qs) (q' :: qs') r r' hrest2
          exact ⟨by rw [String.ext hk, hv, hps], hrr⟩

end

/-! ## Canonical form (`sortJ`) and structural equality -/

theorem serC_inj (x y : JVal) (h : serC x = serC y) : x = y :=
  (serC_unamb x y [] [] trivial trivial (by simp [h])).1

theorem sortJList_eq_map : ∀ xs : List JVal, sortJList xs = xs.map sortJ := by
  intro xs
  induction xs with
  | nil => rfl
  | cons x xs ih => simp [sortJList, ih]

theorem sortJPairs_eq_map : ∀ kvs : List (String × JVal),
    sortJPairs kvs = kvs.map fun p => (p.1, sortJ p.2) := by
  intro kvs
  induction kvs with
  | nil => rfl
  | cons p ps ih =>
    obtain ⟨k, v⟩ := p
    simp [sortJPairs, ih]

theorem sortJPairs_map_fst (kvs : List (String × JVal)) :
    (sortJPairs kvs).map Prod.fst = kvs.map Prod.fst := by
  rw [sortJPairs_eq_map, List.map_map]
  rfl

theorem sortJPairs_length (kvs : List (String × JVal)) :
    (sortJPairs kvs).length = kvs.length := by
  rw [sortJPairs_eq_map, List.length_map]

theorem mem_sortJPairs {k : String} {w : JVal} {kvs : List (String × JVal)} :
    (k, w) ∈ sortJPairs kvs ↔ ∃ v, (k, v) ∈ kvs ∧ w = sortJ v := by
  rw [sortJPairs_eq_map]
  constructor
  · intro h
    obtain ⟨⟨k', v⟩, hv, he⟩ := List.mem_map.mp h
    simp only [Prod.mk.injEq] at he
    exact ⟨v, he.1 ▸ hv, he.2.symm⟩
  · intro ⟨v, hv, he⟩
    exact List.mem_map.mpr ⟨(k, v), hv, by simp [he]⟩

theorem sizeOf_lt_of_mem_list {v : JVal} {xs : List JVal} (h : v ∈ xs) :
    sizeOf v < sizeOf (JVal.jarr xs) := by
  have := List.sizeOf_lt_of_mem h
  simp only [JVal.jarr.sizeOf_spec]
  omega

theorem sizeOf_lt_of_mem_pairs {k : String} {v : JVal} {kvs : List (String × JVal)}
    (h : (k, v) ∈ kvs) : sizeOf v < sizeOf (JVal.jobj kvs) := by
  have := List.sizeOf_lt_of_mem h
  simp only [JVal.jobj.sizeOf_spec, Prod.mk.sizeOf_spec] at *
  omega

theorem nodup_sortJPairs {kvs : List (String × JVal)}
    (h : (kvs.map Prod.fst).Nodup) : (sortJPairs kvs).Nodup := by
  apply List.Nodup.of_map Prod.fst
  rw [sortJPairs_map_fst]
  exact h

theorem sorted_keyLtKey {kvs : List (String × JVal)} (hnd : (kvs.map Prod.fst).Nodup) :
    List.Sorted keyLtKey (List.insertionSort keyLe kvs) := by
  have hs := List.sorted_insertionSort keyLe kvs
  have hperm := List.perm_insertionSort keyLe kvs
  have hnd2 : ((List.insertionSort keyLe kvs).map Prod.fst).Nodup :=
    ((hperm.map Prod.fst).nodup_iff).mpr hnd
  have hne : (List.insertionSort keyLe kvs).Pairwise fun p q => p.1 ≠ q.1 :=
    (List.pairwise_map).mp hnd2
  exact hs.and hne

theorem sizeOf_pos (a : JVal) : 0 < sizeOf a := by
  cases a <;> simp

theorem canonList_aux : ∀ (xs ys : List JVal), xs.length = ys.length →
    (∀ i (h1 : i < xs.length) (h2 : i < ys.length),
      sortJ (xs.get ⟨i, h1⟩) = sortJ (ys.get ⟨i, h2⟩)) →
    sortJList xs = sortJList ys := by
  intro xs
  induction xs with
  | nil =>
    intro ys hlen _
    cases ys with
    | nil => rfl
    | cons y ys => simp at hlen
  | cons x xs ih =>
    intro ys hlen helem
    cases ys with
    | nil => simp at hlen
    | cons y ys =>
      simp only [sortJList, List.cons.injEq]
      refine ⟨helem 0 (by simp) (by simp), ?_⟩
      refine ih ys (by simpa using hlen) ?_
      intro i h1 h2
      exact helem (i + 1) (by simpa using Nat.succ_lt_succ h1)
        (by simpa using Nat.succ_lt_succ h2)

theorem sortJList_shape : ∀ (xs ys : List JVal), sortJList xs = sortJList ys →
    xs.length = ys.length ∧ ∀ i (h1 : i < xs.length) (h2 : i < ys.length),
      sortJ (xs.get ⟨i, h1⟩) = sortJ (ys.get ⟨i, h2⟩) := by
  intro xs ys h
  rw [sortJList_eq_map, sortJList_eq_map] at h
  have hlen : xs.length = ys.length := by
    have := congrArg List.length h
    simpa using this
  refine ⟨hlen, ?_⟩
  intro i h1 h2
  have hg : (xs.map sortJ).get? i = (ys.map sortJ).get? i := by rw [h]
  rw [List.get?_eq_get (by simpa using h1), List.get?_eq_get (by simpa using h2)] at hg
  have := Option.some.inj hg
  simpa using this

theorem canon_of_structEq_bounded :
    ∀ (n : Nat) (a b : JVal), sizeOf a ≤ n → WfJ a → WfJ b → StructEq a b →
      sortJ a = sortJ b := by
  intro n
  induction n with
  | zero =>
    intro a b hsz _ _ _
    exact absurd hsz (by have := sizeOf_pos a; omega)
  | succ n ih =>
    intro a b hsz ha hb h
    cases h with
    | null => rfl
    | bool b => rfl
    | num n => rfl
    | str s => rfl
    | arr xs ys hlen hpt =>
      cases ha with
      | arr _ hwa =>
        cases hb with
        | arr _ hwb =>
          simp only [sortJ]
          rw [canonList_aux xs ys hlen]
          intro i h1 h2
          have hmem : xs.get ⟨i, h1⟩ ∈ xs := List.get_mem xs i h1
          have hmem' : ys.get ⟨i, h2⟩ ∈ ys := List.get_mem ys i h2
          refine ih _ _ ?_ (hwa _ hmem) (hwb _ hmem') (hpt i h1 h2)
          have h1' := List.sizeOf_lt_of_mem hmem
          have h2' : sizeOf (JVal.jarr xs) ≤ n + 1 := hsz
          simp only [JVal.jarr.sizeOf_spec] at h2'
          omega
    | obj xs ys hlen hmatch =>
      cases ha with
      | obj _ hnx hwx =>
        cases hb with
        | obj _ hny hwy =>
          simp only [sortJ, JVal.jobj.injEq]
          have hsub : sortJPairs xs ⊆ sortJPairs ys := by
            intro p hp
            obtain ⟨k, w⟩ := p
            obtain ⟨v, hv, rfl⟩ := mem_sortJPairs.mp hp
            have hkm := (keyMatch_iff k v ys).mp (hmatch k v hv)
            obtain ⟨u, hu, hvu⟩ := hkm
            have hszv : sizeOf v ≤ n := by
              have := sizeOf_lt_of_mem_pairs hv
              have h2' : sizeOf (JVal.jobj xs) ≤ n + 1 := hsz
              omega
            have hc := ih v u hszv (hwx _ hv) (hwy _ hu) hvu
            exact mem_sortJPairs.mpr ⟨u, hu, hc⟩
          have hperm : List.Perm (sortJPairs xs) (sortJPairs ys) := by
            refine ((nodup_sortJPairs hnx).subperm hsub).perm_of_length_le ?_
            rw [sortJPairs_length, sortJPairs_length, hlen]
          refine List.eq_of_perm_of_sorted ?_
            (sorted_keyLtKey (by rw [sortJPairs_map_fst]; exact hnx))
            (sorted_keyLtKey (by rw [sortJPairs_map_fst]; exact hny))
          exact (List.perm_insertionSort keyLe _).trans
            (hperm.trans (List.perm_insertionSort keyLe _).symm)

theorem structEq_of_canon_bounded :
    ∀ (n : Nat) (a b : JVal), sizeOf a ≤ n → WfJ a → WfJ b → sortJ a = sortJ b →
      StructEq a b := by
  intro n
  induction n with
  | zero =>
    intro a b hsz _ _ _
    exact absurd hsz (by have := sizeOf_pos a; omega)
  | succ n ih =>
    intro a b hsz ha hb h
    cases a with
    | jnull =>
      cases b with
      | jnull => exact StructEq.null
      | jbool b1 => cases h
      | jnum m => cases h
      | jstr s => cases h
      | jarr ys => cases h
      | jobj kvs => cases h
    | jbool b0 =>
      cases b with
      | jbool b1 =>
        simp only [sortJ, JVal.jbool.injEq] at h
        rw [h]
        exact StructEq.bool b1
      | jnull => cases h
      | jnum m => cases h
      | jstr s => cases h
      | jarr ys => cases h
      | jobj kvs => cases h
    | jnum n0 =>
      cases b with
      | jnum m =>
        simp only [sortJ, JVal.jnum.injEq] at h
        rw [h]
        exact StructEq.num m
      | jnull => cases h
      | jbool b1 => cases h
      | jstr s => cases h
      | jarr ys => cases h
      | jobj kvs => cases h
    | jstr s0 =>
      cases b with
      | jstr s' =>
        simp only [sortJ, JVal.jstr.injEq] at h
        rw [h]
        exact StructEq.str s'
      | jnull => cases h
      | jbool b1 => cases h
      | jnum m => cases h
      | jarr ys => cases h
      | jobj kvs => cases h
    | jarr xs =>
      cases b with
      | jarr ys =>
        simp only [sortJ, JVal.jarr.injEq] at h
        cases ha with
        | arr _ hwa =>
          cases hb with
          | arr _ hwb =>
            obtain ⟨hlen, hpt⟩ := sortJList_shape xs ys h
            refine StructEq.arr xs ys hlen ?_
            intro i h1 h2
            have hmem : xs.get ⟨i, h1⟩ ∈ xs := List.get_mem xs i h1
            have hmem' : ys.get ⟨i, h2⟩ ∈ ys := List.get_mem ys i h2
            refine ih _ _ ?_ (hwa _ hmem) (hwb _ hmem') (hpt i h1 h2)
            have h1' := List.sizeOf_lt_of_mem hmem
            have h2' : sizeOf (JVal.jarr xs) ≤ n + 1 := hsz
            simp only [JVal.jarr.sizeOf_spec] at h2'
            omega
      | jnull => cases h
      | jbool b1 => cases h
      | jnum m => cases h
      | jstr s => cases h
      | jobj kvs => cases h
    | jobj kvs =>
      cases b with
      | jobj kvs' =>
        simp only [sortJ, JVal.jobj.injEq] at h
        cases ha with
        | obj _ hnx hwx =>
          cases hb with
          | obj _ hny hwy =>
            have hperm : List.Perm (sortJPairs kvs) (sortJPairs kvs') := by
              have p1 := List.perm_insertionSort keyLe (sortJPairs kvs)
              have p2 := List.perm_insertionSort keyLe (sortJPairs kvs')
              exact p1.symm.trans (h ▸ p2)
            refine StructEq.obj kvs kvs' ?_ ?_
            · have := hperm.length_eq
              rwa [sortJPairs_length, sortJPairs_length] at this
            · intro k v hkv
              rw [keyMatch_iff]
              have hmem : (k, sortJ v) ∈ sortJPairs kvs' :=
                hperm.subset (mem_sortJPairs.mpr ⟨v, hkv, rfl⟩)
              obtain ⟨w, hw, hsw⟩ := mem_sortJPairs.mp hmem
              have hszv : sizeOf v ≤ n := by
                have := sizeOf_lt_of_mem_pairs hkv
                have h2' : sizeOf (JVal.jobj kvs) ≤ n + 1 := hsz
                omega
              exact ⟨w, hw, ih v w hszv (hwx _ hkv) (hwy _ hw) hsw⟩
      | jnull => cases h
      | jbool b1 => cases h
      | jnum m => cases h
      | jstr s => cases h
      | jarr ys => cases h

theorem canon_of_structEq (a b : JVal) (ha : WfJ a) (hb : WfJ b) (h : StructEq a b) :
    sortJ a = sortJ b :=
  canon_of_structEq_bounded (sizeOf a) a b le_rfl ha hb h

theorem structEq_of_canon (a b : JVal) (ha : WfJ a) (hb : WfJ b) (h : sortJ a = sortJ b) :
    StructEq a b :=
  structEq_of_canon_bounded (sizeOf a) a b le_rfl ha hb h

/-- The canonicalization correspondence: for well-formed JSON values,
`normalize_site` keys agree exactly on structurally equal values. -/
theorem normalize_site_eq_iff {a b : JVal} (ha : WfJ a) (hb : WfJ b) :
    normalize_site a = normalize_site b ↔ StructEq a b := by
  constructor
  · intro h
    have hd : serC (sortJ a) = serC (sortJ b) := congrArg String.data h
    exact structEq_of_canon a b ha hb (serC_inj _ _ hd)
  · intro h
    unfold normalize_site
    rw [canon_of_structEq a b ha hb h]

/-! ## C1: the canonicalizer -/

/-- C1: for every pair of (well-formed, i.e. duplicate-key-free, which is
all that `json.loads` can produce) JSON values `a` and `b`,
`canonicalize(a) == canonicalize(b)` iff `a` and `b` are structurally
equal — same key/value pairs at every nesting level with object keys
compared by name not order, arrays by value and order, scalars by
equality. In particular reordering object keys never changes the
canonical key, and changing any value, key set, value type or nesting
always does. -/
theorem claim_C1_canonicalize_iff (a b : JVal) (ha : WfJ a) (hb : WfJ b) :
    normalize_site a = normalize_site b ↔ StructEq a b :=
  normalize_site_eq_iff ha hb

/-- Witness for C1: an object with its keys written in the two possible
orders has the same canonical key (via the right-to-left direction), and
the canonical key separates it from a structurally different object
(via the left-to-right direction, contrapositive instance). -/
theorem claim_C1_canonicalize_iff_witness :
    normalize_site (.jobj [("x", .jnum 1), ("y", .jstr "a")])
      = normalize_site (.jobj [("y", .jstr "a"), ("x", .jnum 1)]) := by
  have hA : WfJ (.jobj [("x", .jnum 1), ("y", .jstr "a")]) := by
    refine WfJ.obj _ (by simp) ?_
    intro p hp
    rcases List.mem_cons.mp hp with rfl | hp2
    · exact WfJ.num 1
    · rcases List.mem_cons.mp hp2 with rfl | hp3
      · exact WfJ.str "a"
      · cases hp3
  have hB : WfJ (.jobj [("y", .jstr "a"), ("x", .jnum 1)]) := by
    refine WfJ.obj _ (by simp) ?_
    intro p hp
    rcases List.mem_cons.mp hp with rfl | hp2
    · exact WfJ.str "a"
    · rcases List.mem_cons.mp hp2 with rfl | hp3
      · exact WfJ.num 1
      · cases hp3
  apply (claim_C1_canonicalize_iff _ _ hA hB).mpr
  refine StructEq.obj _ _ rfl ?_
  intro k v hkv
  simp only [List.mem_cons, List.mem_singleton, Prod.mk.injEq] at hkv
  rcases hkv with ⟨rfl, rfl⟩ | ⟨⟨rfl, rfl⟩ | h⟩
  · exact KeyMatch.tail _ _ _ _ (KeyMatch.head _ _ _ _ (StructEq.num 1))
  · exact KeyMatch.head _ _ _ _ (StructEq.str "a")
  · cases h

/-! ## Merge-loop lemmas -/

theorem addSites_cons (m : List JVal) (s : List String) (x : JVal) (rest : List JVal) :
    addSites m s (x :: rest)
      = if normalize_site x ∈ s then addSites m s rest
        else addSites (m ++ [x]) (normalize_site x :: s) rest := by
  simp [addSites]

theorem addSites_append (a : List JVal) : ∀ (m : List JVal) (s : List String) (b : List JVal),
    addSites m s (a ++ b) = addSites (addSites m s a).1 (addSites m s a).2 b := by
  induction a with
  | nil => intro m s b; rfl
  | cons x a ih =>
    intro m s b
    rw [List.cons_append, addSites_cons, addSites_cons]
    by_cases h : normalize_site x ∈ s
    · simp only [h, if_true]
      exact ih m s b
    · simp only [h, if_false]
      exact ih (m ++ [x]) (normalize_site x :: s) b

theorem addSites_spec : ∀ (sites : List JVal) (m : List JVal) (s : List String),
    (∀ k, k ∈ s ↔ ∃ w ∈ m, normalize_site w = k) →
    m.Pairwise (fun a b => normalize_site a ≠ normalize_site b) →
    (∃ t, t.Sublist sites ∧ (addSites m s sites).1 = m ++ t)
    ∧ (∀ k, k ∈ (addSites m s sites).2 ↔ ∃ w ∈ (addSites m s sites).1, normalize_site w = k)
    ∧ (addSites m s sites).1.Pairwise (fun a b => normalize_site a ≠ normalize_site b)
    ∧ (∀ key : String, (addSites m s sites).1.find? (fun w => normalize_site w == key)
        = (m.find? (fun w => normalize_site w == key)).or
            (sites.find? (fun w => normalize_site w == key))) := by
  intro sites
  induction sites with
  | nil =>
    intro m s hinv hpw
    refine ⟨⟨[], by simp, by simp [addSites]⟩, ?_, ?_, ?_⟩
    · intro k
      simpa [addSites] using hinv k
    · simpa [addSites] using hpw
    · intro key
      simp [addSites]
  | cons x rest ih =>
    intro m s hinv hpw
    rw [addSites_cons]
    by_cases hx : normalize_site x ∈ s
    · simp only [hx, if_true]
      obtain ⟨hsub, hinv2, hpw2, hfind⟩ := ih m s hinv hpw
      refine ⟨?_, hinv2, hpw2, ?_⟩
      · obtain ⟨t, ht, he⟩ := hsub
        exact ⟨t, ht.cons x, he⟩
      · intro key
        rw [hfind key]
        cases hk : normalize_site x == key with
        | false =>
          congr 1
          simp [List.find?, hk]
        | true =>
          have hkey : normalize_site x = key := by simpa using hk
          obtain ⟨w, hw, hwe⟩ := (hinv (normalize_site x)).mp hx
          have hsome : (m.find? fun w => normalize_site w == key).isSome := by
            rw [List.find?_isSome]
            exact ⟨w, hw, by simp [hwe, hkey]⟩
          obtain ⟨u, hu⟩ := Option.isSome_iff_exists.mp hsome
          rw [hu]
          rfl
    · simp only [hx, if_false]
      have hinv' : ∀ k, k ∈ normalize_site x :: s
          ↔ ∃ w ∈ m ++ [x], normalize_site w = k := by
        intro k
        constructor
        · intro hk
          rcases List.mem_cons.mp hk with rfl | hk2
          · exact ⟨x, List.mem_append_right m (by simp), rfl⟩
          · obtain ⟨w, hw, he⟩ := (hinv k).mp hk2
            exact ⟨w, List.mem_append_left _ hw, he⟩
        · rintro ⟨w, hw, he⟩
          rcases List.mem_append.mp hw with hw2 | hw2
          · exact List.mem_cons_of_mem _ ((hinv k).mpr ⟨w, hw2, he⟩)
          · have hwx : w = x := by simpa using hw2
            subst hwx
            rw [← he]
            exact List.mem_cons_self _ _
      have hpw' : (m ++ [x]).Pairwise (fun a b => normalize_site a ≠ normalize_site b) := by
        rw [List.pairwise_append]
        refine ⟨hpw, by simp, ?_⟩
        intro a ha b hb he
        have hbx : b = x := by simpa using hb
        apply hx
        apply (hinv (normalize_site x)).mpr
        refine ⟨a, ha, ?_⟩
        rw [he, hbx]
      obtain ⟨hsub, hinv2, hpw2, hfind⟩ := ih (m ++ [x]) (normalize_site x :: s) hinv' hpw'
      refine ⟨?_, hinv2, hpw2, ?_⟩
      · obtain ⟨t, ht, he⟩ := hsub
        exact ⟨x :: t, ht.cons₂ x, by simpa using he⟩
      · intro key
        rw [hfind key, List.find?_append, Option.or_assoc]
        congr 1
        cases hk : normalize_site x == key with
        | false => simp [List.find?, hk]
        | true => simp [List.find?, hk]

theorem mergeLoop_zero_state (fetch : JVal → List JVal) :
    ∀ (urls : List JVal) (m : List JVal) (s : List String) (p : Nat) (a : List JVal) (d : Nat),
      (mergeLoop fetch 0 ⟨m, s, p, a, d⟩ urls).merged
          = (addSites m s ((urls.map fetch).flatten)).1
      ∧ (mergeLoop fetch 0 ⟨m, s, p, a, d⟩ urls).seen
          = (addSites m s ((urls.map fetch).flatten)).2
      ∧ (mergeLoop fetch 0 ⟨m, s, p, a, d⟩ urls).attempts = a ++ urls
      ∧ (mergeLoop fetch 0 ⟨m, s, p, a, d⟩ urls).processed = p + urls.length
      ∧ (mergeLoop fetch 0 ⟨m, s, p, a, d⟩ urls).delays = d + urls.length := by
  intro urls
  induction urls with
  | nil =>
    intro m s p a d
    simp [mergeLoop, addSites]
  | cons u rest ih =>
    intro m s p a d
    have hcond : ¬((0 : Int) ≠ 0 ∧ (0 : Int) ≤ (p : Int)) := by simp
    rw [mergeLoop, if_neg hcond]
    obtain ⟨h1, h2, h3, h4, h5⟩ :=
      ih (addSites m s (fetch u)).1 (addSites m s (fetch u)).2 (p + 1) (a ++ [u]) (d + 1)
    rw [List.map_cons, List.flatten_cons, addSites_append]
    refine ⟨h1, h2, by rw [h3]; simp, by rw [h4]; simp; omega, by rw [h5]; simp; omega⟩

theorem mergeLoop_pos_state (fetch : JVal → List JVal) (n : Int) (hn : 0 < n) :
    ∀ (urls : List JVal) (st : MergeState),
      (mergeLoop fetch n st urls).attempts
          = st.attempts ++ urls.take (n.toNat - st.processed)
      ∧ (mergeLoop fetch n st urls).processed
          = st.processed + min urls.length (n.toNat - st.processed) := by
  intro urls
  induction urls with
  | nil => intro st; simp [mergeLoop]
  | cons u rest ih =>
    intro st
    by_cases hc : n ≤ (st.processed : Int)
    · rw [mergeLoop, if_pos ⟨by omega, hc⟩]
      have h0 : n.toNat - st.processed = 0 := by omega
      rw [h0]
      simp
    · rw [mergeLoop, if_neg (by push_neg; intro _; omega)]
      obtain ⟨h1, h2⟩ :=
        ih ⟨(addSites st.merged st.seen (fetch u)).1, (addSites st.merged st.seen (fetch u)).2,
          st.processed + 1, st.attempts ++ [u], st.delays + 1⟩
      have hlt : st.processed < n.toNat := by omega
      have hsucc : n.toNat - st.processed = (n.toNat - (st.processed + 1)) + 1 := by omega
      constructor
      · rw [h1]
        simp only [hsucc, List.take_succ_cons]
        simp
      · rw [h2]
        simp only [hsucc]
        simp
        omega

theorem countP_eq_one_of_pairwise :
    ∀ (l : List JVal) (key : String),
      l.Pairwise (fun a b => normalize_site a ≠ normalize_site b) →
      ∀ w ∈ l, normalize_site w = key →
        l.countP (fun x => normalize_site x == key) = 1 := by
  intro l
  induction l with
  | nil => intro key _ w hw; cases hw
  | cons x rest ih =>
    intro key hpw w hw hwk
    rcases List.mem_cons.mp hw with rfl | hw2
    · rw [List.countP_cons]
      have hz : rest.countP (fun x => normalize_site x == key) = 0 := by
        rw [List.countP_eq_zero]
        intro y hy
        have hne := (List.pairwise_cons.mp hpw).1 y hy
        simp only [beq_iff_eq]
        rw [← hwk]
        exact fun he => hne he.symm
      simp [hz, hwk]
    · have hne := (List.pairwise_cons.mp hpw).1 w hw2
      rw [List.countP_cons]
      have hnx : ¬ normalize_site x = key := fun he => hne (he.trans hwk.symm)
      simp only [hnx, beq_iff_eq, if_false, Nat.add_zero]
      exact ih key (List.pairwise_cons.mp hpw).2 w hw2 hwk

/-! ## C2: the merge accumulator -/

/-- C2: the merged result is the input stream (URLs in order, then each
URL's extracted entries in order) with every later duplicate removed: it
is pairwise-distinct in canonical keys, a sublist of the concatenated
stream (so first-seen order is preserved), its `find?` for any canonical
key agrees with the whole stream's `find?` (so the kept copy is the
first occurrence), and any two structurally identical well-formed
entries of the stream — even with object keys in different orders —
share one canonical key that appears exactly once in the result. -/
theorem claim_C2_merge_dedup (fetch : JVal → List JVal) (urls : List JVal) :
    ((runMerge fetch 0 urls).merged).Pairwise
        (fun a b => normalize_site a ≠ normalize_site b)
    ∧ ((runMerge fetch 0 urls).merged).Sublist ((urls.map fetch).flatten)
    ∧ (∀ key : String,
        ((runMerge fetch 0 urls).merged).find? (fun w => normalize_site w == key)
          = ((urls.map fetch).flatten).find? (fun w => normalize_site w == key))
    ∧ (∀ a ∈ (urls.map fetch).flatten, ∀ b ∈ (urls.map fetch).flatten,
        WfJ a → WfJ b → StructEq a b →
          normalize_site a = normalize_site b
          ∧ ((runMerge fetch 0 urls).merged).countP
              (fun w => normalize_site w == normalize_site a) = 1) := by
  have hrun := mergeLoop_zero_state fetch urls [] [] 0 [] 0
  have hspec := addSites_spec ((urls.map fetch).flatten) [] [] (by simp) (by simp)
  obtain ⟨hsub, hinv, hpw, hfind⟩ := hspec
  have hmerged : (runMerge fetch 0 urls).merged
      = (addSites [] [] ((urls.map fetch).flatten)).1 := hrun.1
  constructor
  · rw [hmerged]; exact hpw
  constructor
  · rw [hmerged]
    obtain ⟨t, ht, he⟩ := hsub
    simpa [he] using ht
  constructor
  · intro key
    rw [hmerged, hfind key]
    simp
  · intro a ha b hb hwa hwb hse
    have hab : normalize_site a = normalize_site b := (normalize_site_eq_iff hwa hwb).mpr hse
    refine ⟨hab, ?_⟩
    have hfa := hfind (normalize_site a)
    have hsome : (((urls.map fetch).flatten).find?
        (fun w => normalize_site w == normalize_site a)).isSome := by
      rw [List.find?_isSome]
      exact ⟨a, ha, by simp⟩
    obtain ⟨u, hu⟩ := Option.isSome_iff_exists.mp hsome
    have humem : u ∈ (addSites [] [] ((urls.map fetch).flatten)).1 := by
      apply List.mem_of_find?_eq_some
      rw [hfa, hu]
      simp
    have hukey : normalize_site u = normalize_site a := by
      have := List.find?_some (by rw [hfa, hu]; simp :
        ((addSites [] [] ((urls.map fetch).flatten)).1.find?
          (fun w => normalize_site w == normalize_site a)) = some u)
      simpa using this
    rw [hmerged]
    exact countP_eq_one_of_pairwise _ _ hpw u humem hukey

/-- Witness for C2: two fetched lists holding the same object with its
keys in different orders merge to a single copy. -/
theorem claim_C2_merge_dedup_witness :
    normalize_site (.jobj [("x", .jnum 1), ("y", .jstr "a")])
        = normalize_site (.jobj [("y", .jstr "a"), ("x", .jnum 1)])
      ∧ (runMerge
          (fun u => match u with
            | .jnull => [.jobj [("x", .jnum 1), ("y", .jstr "a")]]
            | _ => [.jobj [("y", .jstr "a"), ("x", .jnum 1)]])
          0 [.jnull, .jbool true]).merged.countP
          (fun w => normalize_site w
            == normalize_site (.jobj [("x", .jnum 1), ("y", .jstr "a")])) = 1 := by
  have hA : WfJ (.jobj [("x", .jnum 1), ("y", .jstr "a")]) := by
    refine WfJ.obj _ (by simp) ?_
    intro p hp
    rcases List.mem_cons.mp hp with rfl | hp2
    · exact WfJ.num 1
    · rcases List.mem_cons.mp hp2 with rfl | hp3
      · exact WfJ.str "a"
      · cases hp3
  have hB : WfJ (.jobj [("y", .jstr "a"), ("x", .jnum 1)]) := by
    refine WfJ.obj _ (by simp) ?_
    intro p hp
    rcases List.mem_cons.mp hp with rfl | hp2
    · exact WfJ.str "a"
    · rcases List.mem_cons.mp hp2 with rfl | hp3
      · exact WfJ.num 1
      · cases hp3
  have hse : StructEq (.jobj [("x", .jnum 1), ("y", .jstr "a")])
      (.jobj [("y", .jstr "a"), ("x", .jnum 1)]) := by
    refine StructEq.obj _ _ rfl ?_
    intro k v hkv
    simp only [List.mem_cons, List.mem_singleton, Prod.mk.injEq] at hkv
    rcases hkv with ⟨rfl, rfl⟩ | ⟨⟨rfl, rfl⟩ | h⟩
    · exact KeyMatch.tail _ _ _ _ (KeyMatch.head _ _ _ _ (StructEq.num 1))
    · exact KeyMatch.head _ _ _ _ (StructEq.str "a")
    · cases h
  exact (claim_C2_merge_dedup
      (fun u => match u with
        | .jnull => [.jobj [("x", .jnum 1), ("y", .jstr "a")]]
        | _ => [.jobj [("y", .jstr "a"), ("x", .jnum 1)]])
      [.jnull, .jbool true]).2.2.2
    (.jobj [("x", .jnum 1), ("y", .jstr "a")]) (by simp)
    (.jobj [("y", .jstr "a"), ("x", .jnum 1)]) (by simp)
    hA hB hse

/-! ## C8: the `--max` cap -/

/-- C8: with a positive cap `n` and more than `n` resolved URLs, the loop
invokes the fetcher for exactly the first `n` URLs (`processed = n`, and
the fetched URLs are precisely `urls.take n` — URLs past the cap are
never fetched, whatever each fetch yields); with the default cap `0`
every resolved URL is processed. -/
theorem claim_C8_max_cap (fetch : JVal → List JVal) (urls : List JVal) (n : Int) :
    (0 < n → n.toNat < urls.length →
      (runMerge fetch n urls).attempts = urls.take n.toNat
      ∧ (runMerge fetch n urls).processed = n.toNat)
    ∧ (runMerge fetch 0 urls).attempts = urls
    ∧ (runMerge fetch 0 urls).processed = urls.length := by
  constructor
  · intro hn hlen
    obtain ⟨h1, h2⟩ := mergeLoop_pos_state fetch n hn urls ⟨[], [], 0, [], 0⟩
    constructor
    · rw [runMerge, h1]
      simp
    · rw [runMerge, h2]
      simp
      omega
  · have h := mergeLoop_zero_state fetch urls [] [] 0 [] 0
    exact ⟨by rw [runMerge, h.2.2.1]; simp, by rw [runMerge, h.2.2.2.1]; simp⟩

/-- Witness for C8: a cap of 2 on three URLs fetches exactly the first
two. -/
theorem claim_C8_max_cap_witness :
    (runMerge (fun _ => ([] : List JVal)) 2 [.jnull, .jbool true, .jbool false]).attempts
        = [.jnull, .jbool true]
    ∧ (runMerge (fun _ => ([] : List JVal)) 2 [.jnull, .jbool true, .jbool false]).processed
        = 2 := by
  obtain ⟨h1, h2⟩ := (claim_C8_max_cap (fun _ => ([] : List JVal))
    [.jnull, .jbool true, .jbool false] 2).1 (by decide) (by decide)
  exact ⟨h1.trans rfl, h2.trans rfl⟩

/-! ## C9: failure isolation -/

/-- C9: a failing URL — a fetch exception (`http u = none`), a non-200
status, or a 200 body from which the structured path and every recovery
strategy extract nothing — contributes zero entries, and a URL whose
fetch contributes zero entries leaves the merged result of the whole run
unchanged, with all other URLs still processed; no failure escapes the
per-URL loop (`fetch_and_extract` is total and the loop is a total
function of it). -/
theorem claim_C9_failure_isolated (http : JVal → Option (Nat × String)) (u : JVal) :
    (http u = none → fetch_and_extract http u = [])
    ∧ (∀ status text, http u = some (status, text) → status ≠ 200 →
        fetch_and_extract http u = [])
    ∧ (∀ text, http u = some (200, text) → (pyLoads text).bind shapeFetch = none →
        extract_sites_from_text text = [] → fetch_and_extract http u = [])
    ∧ (∀ (fetch : JVal → List JVal) (urls₁ urls₂ : List JVal), fetch u = [] →
        (runMerge fetch 0 (urls₁ ++ u :: urls₂)).merged
          = (runMerge fetch 0 (urls₁ ++ urls₂)).merged) := by
  refine ⟨?_, ?_, ?_, ?_⟩
  · intro h
    by_cases ht : pyTruthy u <;> simp [fetch_and_extract, ht, h]
  · intro status text h hst
    by_cases ht : pyTruthy u <;> simp [fetch_and_extract, ht, h, hst]
  · intro text h hshape hext
    by_cases ht : pyTruthy u <;> simp [fetch_and_extract, ht, h, hshape, hext]
  · intro fetch urls₁ urls₂ hu
    have h1 := mergeLoop_zero_state fetch (urls₁ ++ u :: urls₂) [] [] 0 [] 0
    have h2 := mergeLoop_zero_state fetch (urls₁ ++ urls₂) [] [] 0 [] 0
    rw [runMerge, h1.1, runMerge, h2.1]
    congr 1
    simp [hu]

/-- Witness for C9: an HTTP 404 contributes nothing and the surrounding
URLs still produce their entries. -/
theorem claim_C9_failure_isolated_witness :
    fetch_and_extract (fun _ => some (404, "\x7b\"sites\": [1]\x7d")) (.jstr "http://x")
        = []
    ∧ (runMerge (fun u => match u with | .jbool true => [] | _ => [.jnum 7]) 0
        [.jnull, .jbool true, .jbool false]).merged
      = (runMerge (fun u => match u with | .jbool true => [] | _ => [.jnum 7]) 0
        [.jnull, .jbool false]).merged := by
  constructor
  · exact (claim_C9_failure_isolated (fun _ => some (404, "\x7b\"sites\": [1]\x7d"))
      (.jstr "http://x")).2.1 404 "\x7b\"sites\": [1]\x7d" rfl (by decide)
  · exact (claim_C9_failure_isolated (fun _ => some (404, "")) (.jbool true)).2.2.2
      (fun u => match u with | .jbool true => [] | _ => [.jnum 7])
      [.jnull] [.jbool false] rfl

/-! ## C10: the empty-string URL -/

/-- C10: an empty string in the index's `urls` list is kept by
resolution; the per-URL step on it returns `[]` without consulting the
HTTP collaborator at all (the result is the same for every collaborator),
yet it still counts toward the `--max` cap (`processed + 1`) and the
inter-request delay still runs after it (`delays + 1`). -/
theorem claim_C10_empty_url :
    (∀ http, fetch_and_extract http (.jstr "") = [])
    ∧ (∀ http http', fetch_and_extract http (.jstr "")
        = fetch_and_extract http' (.jstr ""))
    ∧ resolve_urls (.jobj [("urls", .jarr [.jstr ""])]) = [.jstr ""]
    ∧ (∀ http (maxc : Int) (st : MergeState) (rest : List JVal),
        ¬(maxc ≠ 0 ∧ maxc ≤ (st.processed : Int)) →
        mergeLoop (fetch_and_extract http) maxc st (.jstr "" :: rest)
          = mergeLoop (fetch_and_extract http) maxc
              ⟨st.merged, st.seen, st.processed + 1, st.attempts ++ [.jstr ""],
                st.delays + 1⟩ rest) := by
  refine ⟨?_, ?_, rfl, ?_⟩
  · intro http
    rfl
  · intro http http'
    rfl
  · intro http maxc st rest hc
    rw [mergeLoop, if_neg hc]
    rfl

/-- Witness for C10: the concrete loop step on the empty URL. -/
theorem claim_C10_empty_url_witness :
    mergeLoop (fetch_and_extract (fun _ => none)) 0 ⟨[], [], 0, [], 0⟩ [.jstr ""]
      = mergeLoop (fetch_and_extract (fun _ => none)) 0 ⟨[], [], 1, [.jstr ""], 1⟩ [] :=
  claim_C10_empty_url.2.2.2 (fun _ => none) 0 ⟨[], [], 0, [], 0⟩ [] (by simp)

/-! ## C6: URL resolution from a `urls` list

The claim as stated is false on the code: `entry.get("url") or
entry.get("Url") or entry.get("link")` takes the first *truthy* value,
not the first *present* one, and the subsequent `if u:` drops a falsy
result entirely. -/

/-- Counterexample to C6 as stated: in
`{"urls": [{"url": "", "link": "http://x/3"}]}` the key `url` is present
(bound to `""`), so "first present value" resolves to `[""]`, but the
code resolves to `["http://x/3"]`. -/
theorem claim_C6_counterexample :
    resolve_urls (.jobj [("urls", .jarr
        [.jobj [("url", .jstr ""), ("link", .jstr "http://x/3")]])])
      = [.jstr "http://x/3"]
    ∧ resolve_urls_spec (.jobj [("urls", .jarr
        [.jobj [("url", .jstr ""), ("link", .jstr "http://x/3")]])])
      = [.jstr ""]
    ∧ resolve_urls (.jobj [("urls", .jarr
        [.jobj [("url", .jstr ""), ("link", .jstr "http://x/3")]])])
      ≠ resolve_urls_spec (.jobj [("urls", .jarr
        [.jobj [("url", .jstr ""), ("link", .jstr "http://x/3")]])]) := by
  refine ⟨rfl, rfl, ?_⟩
  intro h
  rw [show resolve_urls (.jobj [("urls", .jarr
        [.jobj [("url", .jstr ""), ("link", .jstr "http://x/3")]])])
      = [.jstr "http://x/3"] from rfl,
    show resolve_urls_spec (.jobj [("urls", .jarr
        [.jobj [("url", .jstr ""), ("link", .jstr "http://x/3")]])])
      = [.jstr ""] from rfl] at h
  simp at h

/-- C6 (amended): for an index object whose `urls` key maps to a list,
resolution takes string entries verbatim and, for each object entry,
takes the first *truthy* value among keys `url`, `Url`, `link` in that
priority order — a present-but-falsy value (such as the empty string) is
passed over, and an entry whose three candidates are all absent or falsy
is silently skipped. The claim's concrete example is unchanged. -/
theorem claim_C6_amended :
    resolve_urls (.jobj [("urls", .jarr [.jstr "http://x/1",
        .jobj [("url", .jstr "http://x/2")], .jobj [("link", .jstr "http://x/3")],
        .jobj [("nope", .jstr "z")]])])
      = [.jstr "http://x/1", .jstr "http://x/2", .jstr "http://x/3"]
    ∧ (∀ (kvs : List (String × JVal)) (entries : List JVal),
        getKey "urls" kvs = some (.jarr entries) →
        resolve_urls (.jobj kvs) = entriesUrls entries)
    ∧ (∀ s, entryUrls (.jstr s) = [.jstr s])
    ∧ (∀ kvs, entryUrls (.jobj kvs)
        = match ([getD "url" kvs, getD "Url" kvs, getD "link" kvs].filter
            pyTruthy).head? with
          | some u => [u]
          | none => []) := by
  refine ⟨rfl, ?_, fun s => rfl, ?_⟩
  · intro kvs entries h
    simp [resolve_urls, h]
  · intro kvs
    cases h1 : pyTruthy (getD "url" kvs) <;> cases h2 : pyTruthy (getD "Url" kvs) <;>
      cases h3 : pyTruthy (getD "link" kvs) <;>
        simp [entryUrls, pyOr, h1, h2, h3, List.filter]

/-- Witness for C6 (amended): the general rule applied to a concrete
index, showing the falsy `url` value being passed over. -/
theorem claim_C6_amended_witness :
    resolve_urls (.jobj [("urls", .jarr [.jstr "a",
        .jobj [("url", .jstr ""), ("link", .jstr "http://x/3")]])])
      = entriesUrls [.jstr "a",
          .jobj [("url", .jstr ""), ("link", .jstr "http://x/3")]] :=
  claim_C6_amended.2.1 _ _ rfl

/-! ## C7: the URL regex fallback -/

/-- C7: when the index has no `urls` list (key absent, wrong type, or
the document is not an object), resolution re-serializes the whole
document with `json.dumps` and returns every `https?://`-token (scheme
then a maximal run of non-whitespace, non-quote, non-comma characters)
in order of appearance, without deduplication — a URL occurring twice
appears twice in the derived list and is fetched twice. -/
theorem claim_C7_url_regex_fallback :
    (∀ data : JVal,
      (∀ kvs, data = .jobj kvs → ∀ entries, getKey "urls" kvs ≠ some (.jarr entries)) →
      resolve_urls data = (urlScan (dumpsAscii data)).map .jstr)
    ∧ resolve_urls (.jobj [("a", .jstr "http://u"), ("b", .jstr "http://u")])
        = [.jstr "http://u", .jstr "http://u"]
    ∧ (∀ fetch : JVal → List JVal,
        (runMerge fetch 0 (resolve_urls
            (.jobj [("a", .jstr "http://u"), ("b", .jstr "http://u")]))).attempts
          = [.jstr "http://u", .jstr "http://u"]) := by
  refine ⟨?_, rfl, ?_⟩
  · intro data h
    cases data with
    | jobj kvs =>
      cases hgk : getKey "urls" kvs with
      | none => simp [resolve_urls, hgk]
      | some v =>
        cases v with
        | jarr entries => exact absurd hgk (h kvs rfl entries)
        | jnull => simp [resolve_urls, hgk]
        | jbool b => simp [resolve_urls, hgk]
        | jnum n => simp [resolve_urls, hgk]
        | jstr s => simp [resolve_urls, hgk]
        | jobj kvs2 => simp [resolve_urls, hgk]
    | jnull => rfl
    | jbool b => rfl
    | jnum n => rfl
    | jstr s => rfl
    | jarr xs => rfl
  · intro fetch
    have h := (mergeLoop_zero_state fetch (resolve_urls
        (.jobj [("a", .jstr "http://u"), ("b", .jstr "http://u")])) [] [] 0 [] 0).2.2.1
    rw [runMerge, h]
    rw [show resolve_urls (.jobj [("a", .jstr "http://u"), ("b", .jstr "http://u")])
        = [.jstr "http://u", .jstr "http://u"] from rfl]
    simp

/-- Witness for C7: the fallback rule applied to an object whose `urls`
key is absent. -/
theorem claim_C7_url_regex_fallback_witness :
    resolve_urls (.jobj [("a", .jstr "http://u"), ("b", .jstr "http://u")])
      = (urlScan (dumpsAscii
          (.jobj [("a", .jstr "http://u"), ("b", .jstr "http://u")]))).map .jstr :=
  (claim_C7_url_regex_fallback).1 _ (by
    intro kvs hkv entries
    cases hkv
    simp [getKey])

end MergeSites
